import Mathlib

/-!
Verification of the ji-lattice library (sources: src/utils.ts, src/index.ts,
src/lattice-3d.ts).  JavaScript numbers are modelled as exact rationals,
loop counters as integers, thrown exceptions as `Except.error`.
-/

namespace JiLattice

/-!
JavaScript number arithmetic is modelled by the wrapper operations qadd,
qsub, qmul, qdiv, qneg and qabs below.  Each is proven equal to the
corresponding field operation of ℚ (the bridge lemmas qadd_eq … qabs_eq), but
unlike the library operations they are not marked irreducible, so every
definition of this development evaluates on concrete inputs with `decide`.
-/

/-- Rational addition: a/b + c/d = (ad + cb)/(bd). -/
def qadd (a b : ℚ) : ℚ := mkRat (a.num * b.den + b.num * a.den) (a.den * b.den)

/-- Rational negation. -/
def qneg (a : ℚ) : ℚ := mkRat (-a.num) a.den

/-- Rational subtraction. -/
def qsub (a b : ℚ) : ℚ := qadd a (qneg b)

/-- Rational multiplication. -/
def qmul (a b : ℚ) : ℚ := mkRat (a.num * b.num) (a.den * b.den)

/-- Rational division (0 when the divisor is 0, as in ℚ). -/
def qdiv (a b : ℚ) : ℚ :=
  if b.num < 0 then mkRat (-(a.num * b.den)) (a.den * (-b.num).toNat)
  else mkRat (a.num * b.den) (a.den * b.num.toNat)

/-- Rational absolute value. -/
def qabs (q : ℚ) : ℚ := if q < 0 then qneg q else q

theorem qadd_eq (a b : ℚ) : qadd a b = a + b := by
  unfold qadd
  rw [Rat.mkRat_eq_div]
  have ha : ((a.den : ℚ)) ≠ 0 := by
    exact_mod_cast a.den_nz
  have hb : ((b.den : ℚ)) ≠ 0 := by
    exact_mod_cast b.den_nz
  conv_rhs => rw [← Rat.num_div_den a, ← Rat.num_div_den b]
  push_cast
  field_simp

theorem qneg_eq (a : ℚ) : qneg a = -a := by
  unfold qneg
  rw [Rat.mkRat_eq_div]
  have ha : ((a.den : ℚ)) ≠ 0 := by
    exact_mod_cast a.den_nz
  conv_rhs => rw [← Rat.num_div_den a]
  push_cast
  field_simp

theorem qsub_eq (a b : ℚ) : qsub a b = a - b := by
  unfold qsub
  rw [qadd_eq, qneg_eq]
  ring

theorem qmul_eq (a b : ℚ) : qmul a b = a * b := by
  unfold qmul
  rw [Rat.mkRat_eq_div]
  have ha : ((a.den : ℚ)) ≠ 0 := by
    exact_mod_cast a.den_nz
  have hb : ((b.den : ℚ)) ≠ 0 := by
    exact_mod_cast b.den_nz
  conv_rhs => rw [← Rat.num_div_den a, ← Rat.num_div_den b]
  push_cast
  field_simp

theorem qdiv_eq (a b : ℚ) : qdiv a b = a / b := by
  unfold qdiv
  have ha : ((a.den : ℚ)) ≠ 0 := by
    exact_mod_cast a.den_nz
  have hb : ((b.den : ℚ)) ≠ 0 := by
    exact_mod_cast b.den_nz
  rcases lt_trichotomy b.num 0 with hn | hn | hn
  · rw [if_pos hn, Rat.mkRat_eq_div]
    have hZ : ((a.den * (-b.num).toNat : ℕ) : ℤ) = (a.den : ℤ) * (-b.num) := by
      push_cast [Int.toNat_of_nonneg (by omega : (0 : ℤ) ≤ -b.num)]
      ring
    have hcast : (((a.den * (-b.num).toNat : ℕ)) : ℚ) = (a.den : ℚ) * (-(b.num : ℚ)) := by
      exact_mod_cast hZ
    rw [hcast]
    conv_rhs => rw [← Rat.num_div_den a, ← Rat.num_div_den b]
    have hbn : ((b.num : ℚ)) ≠ 0 := by
      exact_mod_cast (by omega : b.num ≠ 0)
    push_cast
    field_simp
  · rw [if_neg (by omega), hn]
    have hb0 : b = 0 := by
      exact Rat.num_eq_zero.mp hn
    subst hb0
    simp [Rat.mkRat_eq_div]
  · rw [if_neg (by omega), Rat.mkRat_eq_div]
    have hZ : ((a.den * b.num.toNat : ℕ) : ℤ) = (a.den : ℤ) * b.num := by
      push_cast [Int.toNat_of_nonneg (by omega : (0 : ℤ) ≤ b.num)]
      ring
    have hcast : (((a.den * b.num.toNat : ℕ)) : ℚ) = (a.den : ℚ) * (b.num : ℚ) := by
      exact_mod_cast hZ
    rw [hcast]
    conv_rhs => rw [← Rat.num_div_den a, ← Rat.num_div_den b]
    have hbn : ((b.num : ℚ)) ≠ 0 := by
      exact_mod_cast (by omega : b.num ≠ 0)
    push_cast
    field_simp

theorem qabs_eq (q : ℚ) : qabs q = |q| := by
  unfold qabs
  rw [qneg_eq]
  rcases lt_or_le q 0 with h | h
  · rw [if_pos h, abs_of_neg h]
  · rw [if_neg (not_lt.mpr h), abs_of_nonneg h]

/-- JavaScript Math.round on a rational: floor (x + 1/2). -/
def jsRound (q : ℚ) : ℤ := Rat.floor (qadd q (mkRat 1 2))

theorem jsRound_eq (q : ℚ) : jsRound q = ⌊q + (1 : ℚ)/2⌋ := by
  unfold jsRound
  rw [qadd_eq]
  norm_num [Rat.mkRat_eq_div]
  rfl

/-- JavaScript Math.sign restricted to rationals. -/
def jsSign (q : ℚ) : ℤ := if q < 0 then -1 else if q = 0 then 0 else 1

/-- Truncation toward zero of a rational, as used by the JavaScript % operator. -/
def ratTrunc (q : ℚ) : ℤ := if 0 ≤ q then Rat.floor q else Rat.ceil q

/-- JavaScript remainder x % m (sign follows the dividend, truncated division). -/
def qrem (x m : ℚ) : ℚ := qsub x (qmul m ((ratTrunc (qdiv x m) : ℤ) : ℚ))

/-- mmod from xen-dev-utils on rationals: ((x % m) + m) % m. -/
def mmodQ (x m : ℚ) : ℚ := qrem (qadd (qrem x m) m) m

/-- mmod from xen-dev-utils on integers (JavaScript % is truncated remainder). -/
def mmodZ (x m : ℤ) : ℤ := ((x.tmod m) + m).tmod m

/-- EPSILON = 1e-6, the tolerance radius used for near-unit distances. -/
def EPSILON : ℚ := mkRat 1 1000000

/-- The type of an edge connecting two vertices or a gridline (src/types.ts). -/
inductive EdgeType
  | primary
  | custom
  | auxiliary
  | gridline
deriving DecidableEq

deriving instance DecidableEq for Except

/-- A Connection joins two indices into the extended monzo batch. -/
structure Connection where
  index1 : ℕ
  index2 : ℕ
  type : EdgeType
deriving DecidableEq

/-- Right-pad a vector with zeros up to width n (no-op when already at least n wide). -/
def padTo (l : List ℚ) (n : ℕ) : List ℚ := l ++ List.replicate (n - l.length) 0

/-- Contribution of one coordinate pair to taxicabDistance: the absolute
difference must be within tolerance of its nearest integer, else the whole
distance is NaN (modelled as `none`). -/
def taxiStep (x y tol : ℚ) : Option ℕ :=
  let distance := qabs (qsub x y)
  let move := jsRound distance
  if qabs (qsub distance ((move : ℤ) : ℚ)) ≤ tol then some move.toNat else none

/-- The tail of the taxicab walk once the first vector is exhausted: the
remaining coordinates of the longer vector count against 0. -/
def taxiTail (tol : ℚ) : List ℚ → Option ℕ
  | [] => some 0
  | y :: ys =>
    match taxiStep 0 y tol, taxiTail tol ys with
    | some m, some r => some (m + r)
    | _, _ => none

/-- Coordinatewise walk of taxicabDistance; a missing coordinate counts as 0. -/
def taxiGo (tol : ℚ) : List ℚ → List ℚ → Option ℕ
  | [], ys => taxiTail tol ys
  | x :: xs, [] =>
    match taxiStep x 0 tol, taxiGo tol xs [] with
    | some m, some r => some (m + r)
    | _, _ => none
  | x :: xs, y :: ys =>
    match taxiStep x y tol, taxiGo tol xs ys with
    | some m, some r => some (m + r)
    | _, _ => none

/-- taxicabDistance from src/utils.ts and src/index.ts.  When the first vector
is longer the source swaps the arguments (resetting the tolerance to the
default EPSILON, as the recursive call does). -/
def taxicabDistance (a b : List ℚ) (tol : ℚ := EPSILON) : Option ℕ :=
  if b.length < a.length then taxiGo EPSILON b a else taxiGo tol a b

/-- monzosEqual from xen-dev-utils: elementwise equality where the overhang of
the longer vector must be zero. -/
def monzosEqual : List ℚ → List ℚ → Bool
  | [], ys => ys.all fun y => y == 0
  | x :: xs, [] => x == 0 && monzosEqual xs []
  | x :: xs, y :: ys => x == y && monzosEqual xs ys

/-- All ordered index pairs (i, j), i < j < n, in the order the nested
for-loops of `connect` visit them. -/
def pairList (n : ℕ) : List (ℕ × ℕ) :=
  (List.range n).flatMap fun i => (List.range' (i + 1) (n - (i + 1))).map fun j => (i, j)

/-- The labelled gapSearch loop of `connect` for one pair (mi, mj): scan the
coordinates k in order; a gap of ±2 synthesizes the midpoint on that axis, a
gap of ±1 synthesizes two one-axis shifts using l = k+1; both cases end the
scan.  `base` is the primary batch, `acc` the auxiliary vectors found so far. -/
def gapSearch (mi mj : List ℚ) (base : List (List ℚ)) (acc : List (List ℚ)) :
    List ℕ → List (List ℚ)
  | [] => acc
  | k :: ks =>
    let gap := qsub (mi.getD k 0) (mj.getD k 0)
    if qabs gap = 2 then
      let padded := padTo mj (max mj.length mi.length)
      let monzo := padded.set k (qadd (padded.getD k 0) (qdiv gap 2))
      if (base ++ acc).any (fun existing => monzosEqual monzo existing) then acc
      else acc ++ [monzo]
    else if qabs gap = 1 then
      match ks with
      | [] => acc
      | l :: _ =>
        let otherGap := qsub (mi.getD l 0) (mj.getD l 0)
        let padded := padTo mj (max mj.length mi.length)
        let monzo := padded.set k (qadd (padded.getD k 0) gap)
        let otherWay := padded.set l (qadd (padded.getD l 0) otherGap)
        let monzoUnique := ¬ (base ++ acc).any (fun existing => monzosEqual monzo existing)
        let otherUnique := ¬ (base ++ acc).any (fun existing => monzosEqual otherWay existing)
        acc ++ (if monzoUnique then [monzo] else []) ++ (if otherUnique then [otherWay] else [])
    else gapSearch mi mj base acc ks

/-- Phase 1 of `connect` (runs when maxDistance > 1): synthesize auxiliary
vectors for each pair at integral distance in (1, maxDistance]. -/
def connectPhase1 (monzos : List (List ℚ)) (maxDistance : ℚ) : List (List ℚ) :=
  (pairList monzos.length).foldl
    (fun acc ij =>
      let mi := monzos.getD ij.1 []
      let mj := monzos.getD ij.2 []
      match taxicabDistance mi mj with
      | none => acc
      | some d =>
        if 1 < (d : ℚ) ∧ (d : ℚ) ≤ maxDistance then
          gapSearch mi mj monzos acc (List.range (max mi.length mj.length))
        else acc)
    []

/-- Phase 2 of `connect` (runs when maxDistance ≥ 1): every pair of the
extended batch at distance exactly 1 becomes a Connection. -/
def connectPhase2 (extended : List (List ℚ)) (primaryLength : ℕ) : List Connection :=
  (pairList extended.length).filterMap fun ij =>
    match taxicabDistance (extended.getD ij.1 []) (extended.getD ij.2 []) with
    | some 1 =>
      some ⟨ij.1, ij.2,
        if ij.1 < primaryLength ∧ ij.2 < primaryLength then .primary else .auxiliary⟩
    | _ => none

structure ConnectResult where
  connections : List Connection
  connectingMonzos : List (List ℚ)
deriving DecidableEq

/-- connect from src/utils.ts (identical copy in src/index.ts). -/
def connect (monzos : List (List ℚ)) (maxDistance : ℚ) : Except String ConnectResult :=
  if 2 < maxDistance then .error "Only up to max distance = 2 implemented."
  else
    let connectingMonzos := if 1 < maxDistance then connectPhase1 monzos maxDistance else []
    let connections :=
      if 1 ≤ maxDistance then connectPhase2 (monzos ++ connectingMonzos) monzos.length
      else []
    .ok ⟨connections, connectingMonzos⟩

/-! ### Claims C1 and C2: the Connector -/

theorem pairList_mem {n : ℕ} {p : ℕ × ℕ} :
    p ∈ pairList n ↔ p.1 < p.2 ∧ p.2 < n := by
  cases p with
  | mk i j =>
    simp only [pairList, List.mem_flatMap, List.mem_map, List.mem_range, List.mem_range'_1,
      Prod.mk.injEq]
    constructor
    · rintro ⟨a, ha, b, ⟨hb1, hb2⟩, rfl, rfl⟩
      omega
    · rintro ⟨hij, hj⟩
      exact ⟨i, by omega, j, by omega, rfl, rfl⟩

theorem connectPhase2_mem {extended : List (List ℚ)} {pl : ℕ} {c : Connection}
    (hc : c ∈ connectPhase2 extended pl) :
    c.index1 < c.index2 ∧ c.index2 < extended.length ∧
      taxicabDistance (extended.getD c.index1 []) (extended.getD c.index2 []) = some 1 := by
  simp only [connectPhase2, List.mem_filterMap] at hc
  obtain ⟨ij, hij, hf⟩ := hc
  have hb := pairList_mem.mp hij
  rcases hd : taxicabDistance (extended.getD ij.1 []) (extended.getD ij.2 []) with _ | d
  · rw [hd] at hf; exact absurd hf (by simp)
  · rw [hd] at hf
    match d, hf with
    | 1, hf =>
      cases hf
      exact ⟨hb.1, hb.2, hd⟩

/-- C1: for any monzo batch and admissible maxDistance, every Connection
returned by `connect` has index1 < index2, both indices fall in the extended
(primary ++ auxiliary) batch, and the taxicab distance between the two joined
vectors is exactly 1 (pairs with undefined or non-1 distance yield no
Connection). -/
theorem connect_connection_invariant
    {monzos : List (List ℚ)} {maxDistance : ℚ} {r : ConnectResult}
    (h : connect monzos maxDistance = .ok r) {c : Connection} (hc : c ∈ r.connections) :
    c.index1 < c.index2 ∧ c.index2 < (monzos ++ r.connectingMonzos).length ∧
      taxicabDistance ((monzos ++ r.connectingMonzos).getD c.index1 [])
        ((monzos ++ r.connectingMonzos).getD c.index2 []) = some 1 := by
  by_cases h2 : 2 < maxDistance
  · simp [connect, h2] at h
  · simp only [connect, h2, if_false] at h
    cases h
    by_cases h1 : 1 ≤ maxDistance
    · simp only [h1, if_true] at hc ⊢
      exact connectPhase2_mem hc
    · simp [h1] at hc

/-- Witness for C1 at a concrete input: `connect [[1],[0]] 1` returns the
single primary connection (0,1) whose endpoints are at distance 1. -/
theorem connect_connection_invariant_witness :
    (0:ℕ) < 1 ∧ (1:ℕ) < ([[(1:ℚ)], [0]] ++ ([] : List (List ℚ))).length ∧
      taxicabDistance (([[(1:ℚ)], [0]] ++ ([] : List (List ℚ))).getD 0 [])
        (([[(1:ℚ)], [0]] ++ ([] : List (List ℚ))).getD 1 []) = some 1 := by
  have h : connect [[(1:ℚ)], [0]] 1 = .ok ⟨[⟨0, 1, .primary⟩], []⟩ := by
    decide
  exact connect_connection_invariant (c := ⟨0, 1, .primary⟩) h (by simp)

/-- C2 counterexample: for the pair ([1,0,1], [0,0,0]) the taxicab distance is
2 and the first gap found has magnitude 1 at k = 0, while the second nonzero
gap sits at l = 2.  The claim predicts the auxiliary vectors [1,0,0] (column 0
shifted) and [0,0,1] (column 2 shifted, not equal to any existing vector), but
the code synthesizes only [1,0,0]: the second synthesized vector shifts column
k+1 = 1 (whose gap is 0), collapses to [0,0,0] and is deduplicated away. -/
theorem connect_gap1_counterexample :
    connect [[(1:ℚ), 0, 1], [0, 0, 0]] 2 =
      .ok ⟨[⟨0, 2, .auxiliary⟩, ⟨1, 2, .auxiliary⟩], [[1, 0, 0]]⟩ ∧
    taxicabDistance [(1:ℚ), 0, 1] [0, 0, 0] = some 2 ∧
    ((1:ℚ) - 0 = 1) ∧ ((1:ℚ) - 0 ≠ 0) ∧
    (∀ v ∈ [[(1:ℚ), 0, 1], [0, 0, 0], [1, 0, 0]], monzosEqual [0, 0, 1] v = false) ∧
    [(0:ℚ), 0, 1] ∉ [[(1:ℚ), 0, 0]] := by
  refine ⟨by decide, by decide, by norm_num, by norm_num, by decide, by decide⟩

theorem gapSearch_skips {mi mj : List ℚ} {base acc : List (List ℚ)} {l1 l2 : List ℕ}
    (h : ∀ k ∈ l1, qabs (qsub (mi.getD k 0) (mj.getD k 0)) ≠ 2 ∧
      qabs (qsub (mi.getD k 0) (mj.getD k 0)) ≠ 1) :
    gapSearch mi mj base acc (l1 ++ l2) = gapSearch mi mj base acc l2 := by
  induction l1 with
  | nil => rfl
  | cons x xs ih =>
    have hx := h x (by simp)
    rw [List.cons_append]
    simp only [gapSearch]
    rw [if_neg hx.1, if_neg hx.2]
    exact ih fun k hk => h k (by simp [hk])

/-- C2 amended: when the first qualifying gap for a distance-2 pair has
magnitude 1 at coordinate k, the companion coordinate used by the code is
always l = k + 1 (regardless of whether its gap is nonzero): the two candidate
auxiliary vectors shift column k by the k-gap and column k+1 by the (possibly
zero) k+1-gap, and each is inserted only if not monzo-equal to an existing
vector. -/
theorem connect_gap1_amended
    {a b : List ℚ} {maxDistance : ℚ} (hle : ¬ 2 < maxDistance) {d : ℕ}
    (hd : taxicabDistance a b = some d)
    (h1 : 1 < (d : ℚ)) (h2 : (d : ℚ) ≤ maxDistance)
    {k : ℕ} (hfirst : ∀ k' < k, qabs (qsub (a.getD k' 0) (b.getD k' 0)) ≠ 2 ∧
      qabs (qsub (a.getD k' 0) (b.getD k' 0)) ≠ 1)
    (hg1 : qabs (qsub (a.getD k 0) (b.getD k 0)) = 1)
    (hkl : k + 1 < max a.length b.length) :
    ∃ conns,
      connect [a, b] maxDistance =
        .ok ⟨conns,
          (let padded := padTo b (max b.length a.length)
           let monzo := padded.set k (qadd (padded.getD k 0) (qsub (a.getD k 0) (b.getD k 0)))
           let otherWay :=
             padded.set (k + 1)
               (qadd (padded.getD (k + 1) 0) (qsub (a.getD (k + 1) 0) (b.getD (k + 1) 0)))
           (if ¬ [a, b].any (fun existing => monzosEqual monzo existing) then [monzo] else []) ++
           (if ¬ [a, b].any (fun existing => monzosEqual otherWay existing) then [otherWay]
            else []))⟩ := by
  have hm1 : 1 < maxDistance := lt_of_lt_of_le h1 h2
  have hg2 : qabs (qsub (a.getD k 0) (b.getD k 0)) ≠ 2 := by rw [hg1]; norm_num
  have hph1 : connectPhase1 [a, b] maxDistance =
      gapSearch a b [a, b] [] (List.range (max a.length b.length)) := by
    have hp : pairList ([a, b].length) = [(0, 1)] := rfl
    simp only [connectPhase1, hp, List.foldl_cons, List.foldl_nil,
      List.getD_cons_zero, List.getD_cons_succ]
    rw [hd]
    simp [h1, h2]
  have hrange : List.range (max a.length b.length) =
      List.range' 0 k ++ List.range' k (max a.length b.length - k) := by
    rw [List.range_eq_range']
    have := List.range'_append_1 0 k (max a.length b.length - k)
    rw [Nat.zero_add] at this
    rw [this]
    congr 1
    omega
  have hcons : List.range' k (max a.length b.length - k) =
      k :: (k + 1) :: List.range' (k + 2) (max a.length b.length - k - 2) := by
    have h0 : max a.length b.length - k = ((max a.length b.length - k - 2) + 1) + 1 := by omega
    rw [h0, List.range']
    congr 1
  have hval : connectPhase1 [a, b] maxDistance =
      (let padded := padTo b (max b.length a.length)
       let monzo := padded.set k (qadd (padded.getD k 0) (qsub (a.getD k 0) (b.getD k 0)))
       let otherWay :=
         padded.set (k + 1)
           (qadd (padded.getD (k + 1) 0) (qsub (a.getD (k + 1) 0) (b.getD (k + 1) 0)))
       (if ¬ [a, b].any (fun existing => monzosEqual monzo existing) then [monzo] else []) ++
       (if ¬ [a, b].any (fun existing => monzosEqual otherWay existing) then [otherWay]
        else [])) := by
    rw [hph1, hrange]
    rw [gapSearch_skips (by intro k' hk'; exact hfirst k' (by simpa [List.mem_range'_1] using hk'))]
    rw [hcons]
    simp only [gapSearch]
    rw [if_neg hg2, if_pos hg1]
    simp only [List.nil_append, List.append_nil]
  refine ⟨connectPhase2 ([a, b] ++ connectPhase1 [a, b] maxDistance) 2, ?_⟩
  have hmain : connect [a, b] maxDistance =
      .ok ⟨connectPhase2 ([a, b] ++ connectPhase1 [a, b] maxDistance) 2,
           connectPhase1 [a, b] maxDistance⟩ := by
    simp only [connect, hle, if_false, if_pos hm1, if_pos (le_of_lt hm1)]
    rfl
  rw [hmain, hval]

/-- Witness for the amended C2 at the counterexample input: k = 0, the column
k+1 = 1 has zero gap, so only the column-0 shift [1,0,0] survives dedup. -/
theorem connect_gap1_amended_witness :
    ∃ conns,
      connect [[(1:ℚ), 0, 1], [0, 0, 0]] 2 =
        .ok ⟨conns,
          (let padded := padTo [(0:ℚ), 0, 0] (max ([(0:ℚ), 0, 0]).length ([(1:ℚ), 0, 1]).length)
           let monzo := padded.set 0
             (qadd (padded.getD 0 0)
               (qsub (([(1:ℚ), 0, 1]).getD 0 0) (([(0:ℚ), 0, 0]).getD 0 0)))
           let otherWay := padded.set (0 + 1)
             (qadd (padded.getD (0 + 1) 0)
               (qsub (([(1:ℚ), 0, 1]).getD (0 + 1) 0) (([(0:ℚ), 0, 0]).getD (0 + 1) 0)))
           (if ¬ [[(1:ℚ), 0, 1], [0, 0, 0]].any (fun existing => monzosEqual monzo existing)
            then [monzo] else []) ++
           (if ¬ [[(1:ℚ), 0, 1], [0, 0, 0]].any (fun existing => monzosEqual otherWay existing)
            then [otherWay] else []))⟩ :=
  connect_gap1_amended (by norm_num) (d := 2) (by decide) (by norm_num) (by norm_num)
    (fun k' hk' => absurd hk' (by omega)) (by decide) (by norm_num)

/-! ### Claim C4: the Projector -/

/-- True when some axis mapping has a nonzero (truthy) coefficient at column
i: `coordss.map(coords => coords[i]).some(Boolean)` with a missing coefficient
reading as undefined, hence falsy. -/
def axisUsed (coordss : List (List ℚ)) (i : ℕ) : Bool :=
  coordss.any fun coords => coords.getD i 0 ≠ 0

/-- JavaScript `m.splice(i, 1)`: remove column i (no-op past the end). -/
def spliceRemove (l : List ℚ) (i : ℕ) : List ℚ := l.take i ++ l.drop (i + 1)

/-- JavaScript `u.splice(i, 0, 0)`: insert a zero at column i (clamped to the
end when i exceeds the length). -/
def spliceInsert0 (l : List ℚ) (i : ℕ) : List ℚ := l.take i ++ 0 :: l.drop i

/-- limit = Math.max(...coordss.map(coords => coords.length)). -/
def limitOf (coordss : List (List ℚ)) : ℕ := (coordss.map List.length).foldr max 0

/-- The descending column-drop loop of `project`: processes columns
n-1, n-2, …, 0, removing each column whose axis mappings are all zero. -/
def dropColsBelow (coordss : List (List ℚ)) (monzos : List (List ℚ)) : ℕ → List (List ℚ)
  | 0 => monzos
  | n + 1 =>
    dropColsBelow coordss
      (if axisUsed coordss n then monzos else monzos.map (spliceRemove · n)) n

/-- project from src/utils.ts: truncate every vector to the mapping limit,
then drop every all-zero-mapping column, scanning from high to low. -/
def project (monzos coordss : List (List ℚ)) : List (List ℚ) :=
  let limit := limitOf coordss
  dropColsBelow coordss (monzos.map fun m => m.take (min limit m.length)) limit

/-- The ascending column-insert loop of `unproject`: starting at column i with
the given number of remaining columns, insert a zero at every
all-zero-mapping column. -/
def insertColsFrom (coordss : List (List ℚ)) : ℕ → ℕ → List (List ℚ) → List (List ℚ)
  | _, 0, monzos => monzos
  | i, fuel + 1, monzos =>
    insertColsFrom coordss (i + 1) fuel
      (if axisUsed coordss i then monzos else monzos.map (spliceInsert0 · i))

/-- unproject from src/utils.ts. -/
def unproject (monzos coordss : List (List ℚ)) : List (List ℚ) :=
  if monzos = [] then [] else insertColsFrom coordss 0 (limitOf coordss) monzos

/-- Per-vector form of the drop loop. -/
def vecDrop (coordss : List (List ℚ)) (m : List ℚ) : ℕ → List ℚ
  | 0 => m
  | n + 1 => vecDrop coordss (if axisUsed coordss n then m else spliceRemove m n) n

/-- Per-vector form of the insert loop. -/
def vecInsert (coordss : List (List ℚ)) : ℕ → ℕ → List ℚ → List ℚ
  | _, 0, m => m
  | i, fuel + 1, m =>
    vecInsert coordss (i + 1) fuel (if axisUsed coordss i then m else spliceInsert0 m i)

theorem dropColsBelow_map (coordss monzos n) :
    dropColsBelow coordss monzos n = monzos.map (fun m => vecDrop coordss m n) := by
  induction n generalizing monzos with
  | zero => simp [dropColsBelow, vecDrop]
  | succ n ih =>
    rw [dropColsBelow, ih]
    by_cases h : axisUsed coordss n <;>
      simp [h, vecDrop, List.map_map, Function.comp]

theorem insertColsFrom_map (coordss i fuel monzos) :
    insertColsFrom coordss i fuel monzos = monzos.map (vecInsert coordss i fuel) := by
  induction fuel generalizing i monzos with
  | zero => simp [insertColsFrom, vecInsert]
  | succ fuel ih =>
    rw [insertColsFrom, ih]
    by_cases h : axisUsed coordss i <;>
      simp [h, vecInsert, List.map_map, Function.comp]

theorem vecInsert_snoc (coordss : List (List ℚ)) (i fuel : ℕ) (m : List ℚ) :
    vecInsert coordss i (fuel + 1) m =
      (if axisUsed coordss (i + fuel) then vecInsert coordss i fuel m
       else spliceInsert0 (vecInsert coordss i fuel m) (i + fuel)) := by
  induction fuel generalizing i m with
  | zero => simp [vecInsert]
  | succ fuel ih =>
    rw [vecInsert, ih]
    have harith : i + 1 + fuel = i + (fuel + 1) := by omega
    rw [harith]
    rfl

theorem spliceRemove_getD_lt {m : List ℚ} {n i : ℕ} (h : i < n) :
    (spliceRemove m n).getD i 0 = m.getD i 0 := by
  rcases lt_or_le i m.length with hi | hi
  · have hitake : i < (m.take n).length := by
      rw [List.length_take]
      exact lt_min h hi
    unfold spliceRemove
    rw [List.getD_eq_getElem?_getD, List.getElem?_append_left hitake,
      List.getElem?_take_of_lt h, ← List.getD_eq_getElem?_getD]
  · have hlen : (spliceRemove m n).length ≤ i := by
      unfold spliceRemove
      rw [List.length_append, List.length_take, List.length_drop]
      have := Nat.min_le_right n m.length
      omega
    rw [List.getD_eq_default _ _ hlen, List.getD_eq_default _ _ hi]

theorem roundtrip_vec (coordss : List (List ℚ)) :
    ∀ (n : ℕ) (m : List ℚ),
      (∀ i < n, axisUsed coordss i = false → i < m.length ∧ m.getD i 0 = 0) →
      vecInsert coordss 0 n (vecDrop coordss m n) = m := by
  intro n
  induction n with
  | zero => intro m _; rfl
  | succ n ih =>
    intro m hm
    rw [vecDrop, vecInsert_snoc]
    simp only [Nat.zero_add]
    by_cases hu : axisUsed coordss n
    · simp only [hu, if_true]
      exact ih m fun i hi hused => hm i (by omega) hused
    · simp only [hu, if_false, Bool.false_eq_true]
      obtain ⟨hlen, hval⟩ := hm n (by omega) (by simp [hu])
      have hrec : vecInsert coordss 0 n (vecDrop coordss (spliceRemove m n) n) =
          spliceRemove m n := by
        refine ih (spliceRemove m n) fun i hi hused => ?_
        obtain ⟨h1, h2⟩ := hm i (by omega) hused
        constructor
        · unfold spliceRemove
          rw [List.length_append, List.length_take, List.length_drop]
          have := Nat.min_le_left n m.length
          have hmin : min n m.length = n := Nat.min_eq_left (by omega)
          omega
        · rw [spliceRemove_getD_lt hi]
          exact h2
      rw [hrec]
      unfold spliceInsert0 spliceRemove
      have htake : (m.take n ++ m.drop (n + 1)).take n = m.take n := by
        rw [List.take_append_of_le_length (by rw [List.length_take]; omega)]
        rw [List.take_take, min_self]
      have hdrop : (m.take n ++ m.drop (n + 1)).drop n = m.drop (n + 1) := by
        rw [List.drop_append_of_le_length (by rw [List.length_take]; omega)]
        have : (m.take n).length = n := by rw [List.length_take]; omega
        rw [List.drop_eq_nil_of_le (by omega), List.nil_append]
      rw [htake, hdrop]
      have hm_n : m.getD n 0 = m[n] := by
        rw [List.getD_eq_getElem?_getD, List.getElem?_eq_getElem hlen]
        rfl
      have hcons : (0 : ℚ) :: m.drop (n + 1) = m.drop n := by
        rw [← List.getElem_cons_drop m n hlen, ← hm_n, hval]
      rw [hcons, List.take_append_drop]

/-- C4 counterexample: the batch [[5]] with axis mappings [[1,0]] satisfies the
claim's hypothesis (the single dropped all-zero-mapping column, index 1, holds
an implicit zero), yet project-then-unproject widens the vector to [5,0]: the
original width 1 is not restored. -/
theorem project_unproject_counterexample :
    axisUsed [[(1:ℚ), 0]] 1 = false ∧ [(5:ℚ)].getD 1 0 = 0 ∧
    unproject (project [[(5:ℚ)]] [[(1:ℚ), 0]]) [[(1:ℚ), 0]] = [[(5:ℚ), 0]] ∧
    ([[(5:ℚ), 0]] : List (List ℚ)) ≠ [[(5:ℚ)]] := by
  refine ⟨by decide, by decide, by decide, by decide⟩

/-- C4 amended: project followed by unproject with the same axis mappings is
the identity on every batch whose vectors all (a) are no wider than the
mapping limit and (b) carry an explicit zero at every dropped
(all-zero-mapping) column — in particular every dropped column index must lie
inside the vector.  Vectors wider than the limit are truncated and dropped
columns at or past a vector's width add zeros, so width is not restored in
general.  unproject on an empty batch is always a no-op. -/
theorem project_unproject_roundtrip (monzos coordss : List (List ℚ))
    (h : ∀ m ∈ monzos, m.length ≤ limitOf coordss ∧
      ∀ i < limitOf coordss, axisUsed coordss i = false → i < m.length ∧ m.getD i 0 = 0) :
    unproject (project monzos coordss) coordss = monzos ∧
    unproject ([] : List (List ℚ)) coordss = [] := by
  have hnil : ∀ n, dropColsBelow coordss [] n = [] := by
    intro n
    induction n with
    | zero => rfl
    | succ n ih => simp [dropColsBelow, ih]
  refine ⟨?_, rfl⟩
  rcases eq_or_ne monzos [] with rfl | hne
  · simp [project, hnil, unproject]
  · have hproj : project monzos coordss =
        monzos.map (fun m => vecDrop coordss m (limitOf coordss)) := by
      unfold project
      rw [dropColsBelow_map]
      rw [List.map_map]
      refine List.map_congr_left fun m hm => ?_
      have hmin : min (limitOf coordss) m.length = m.length := min_eq_right (h m hm).1
      simp only [Function.comp_apply, hmin, List.take_length]
    have hne' : project monzos coordss ≠ [] := by
      rw [hproj]
      simpa using hne
    rw [unproject, if_neg hne', hproj, insertColsFrom_map, List.map_map]
    have hid : monzos.map
        ((vecInsert coordss 0 (limitOf coordss)) ∘
          (fun m => vecDrop coordss m (limitOf coordss))) = monzos.map id := by
      refine List.map_congr_left fun m hm => ?_
      exact roundtrip_vec coordss (limitOf coordss) m ((h m hm).2)
    rw [hid, List.map_id]

/-- Witness for the amended C4: mappings [[0,1,0],[0,2,0]] drop columns 0 and
2; the full-width vector [0,7,0] with zeros there round-trips exactly. -/
theorem project_unproject_roundtrip_witness :
    unproject (project [[(0:ℚ), 7, 0]] [[(0:ℚ), 1, 0], [0, 2, 0]]) [[(0:ℚ), 1, 0], [0, 2, 0]] =
      [[(0:ℚ), 7, 0]] ∧
    unproject ([] : List (List ℚ)) [[(0:ℚ), 1, 0], [0, 2, 0]] = [] :=
  project_unproject_roundtrip [[(0:ℚ), 7, 0]] [[(0:ℚ), 1, 0], [0, 2, 0]] (by decide)

/-! ### Claims C3 and C10: the ValSolver (modVal) -/

/-- allUnique from src/index.ts: no two entries of the vector are equal. -/
def allUnique (v : List ℤ) : Bool :=
  (pairList v.length).all fun ij => v.getD ij.1 0 ≠ v.getD ij.2 0

/-- One GPV candidate: round each log against the normalizer
(divisions + offset) / logs[0] and reduce modulo divisions. -/
def gpvTry (logs : List ℚ) (divisions : ℤ) (offset : ℚ) : List ℤ :=
  let normalizer := qdiv (qadd ((divisions : ℤ) : ℚ) offset) (logs.getD 0 0)
  logs.map fun l => mmodZ (jsRound (qmul l normalizer)) divisions

/-- The GPV search loop of modVal over iteration indices i = 0, …, res-1:
offset (0.5·i)/res, first the positive offset, then (for i ≠ 0) the negative
one.  Returns the first all-unique candidate. -/
def gpvSearchGo (logs : List ℚ) (d : ℤ) (res : ℕ) : List ℕ → Option (List ℤ)
  | [] => none
  | i :: is =>
    let offset := qdiv (qmul (mkRat 1 2) ((i : ℕ) : ℚ)) ((res : ℕ) : ℚ)
    let mv := gpvTry logs d offset
    if allUnique mv then some mv
    else if i ≠ 0 then
      let mv2 := gpvTry logs d (qneg offset)
      if allUnique mv2 then some mv2 else gpvSearchGo logs d res is
    else gpvSearchGo logs d res is

/-- The naive rounded val with the base normalizer divisions / logs[0] (the
source's stray second argument to map is ignored by JavaScript). -/
def forcedVal (logs : List ℚ) (d : ℤ) : List ℤ :=
  logs.map fun l => jsRound (qmul l (qdiv ((d : ℤ) : ℚ) (logs.getD 0 0)))

/-- The loop indices j with 2*j ≤ divisions of the collision repair. -/
def jList (d : ℤ) : List ℤ :=
  if 0 ≤ d then (List.range (d.toNat / 2 + 1)).map fun j => (j : ℤ) else []

/-- The inner displacement search of the repair: first free slot at
vi + j*s, then vi - j*s, walking j upward. -/
def repairSearch (reserved : List ℤ) (d vi s : ℤ) : List ℤ → ℤ
  | [] => vi
  | j :: js =>
    if mmodZ (vi + j * s) d ∈ reserved then
      if mmodZ (vi - j * s) d ∈ reserved then repairSearch reserved d vi s js
      else vi - j * s
    else vi + j * s

/-- The left-to-right collision repair of modVal for indices i ≥ 1; `front`
holds the already-processed values (val[0..i-1] after updates). -/
def repairLoop (d : ℤ) : List (ℚ × ℤ) → List ℤ → List ℤ
  | [], _ => []
  | (lg, vi) :: rest, front =>
    let reserved := front.map fun v => mmodZ v d
    let vi' :=
      if mmodZ vi d ∈ reserved then
        repairSearch reserved d vi (jsSign (qsub (qmul lg ((d : ℤ) : ℚ)) ((vi : ℤ) : ℚ)))
          (jList d)
      else vi
    vi' :: repairLoop d rest (front ++ [vi'])

/-- modVal from src/index.ts. -/
def modVal (logs : List ℚ) (divisions : ℤ) (searchResolution : ℕ := 0) :
    Except String (List ℤ) :=
  if divisions < (logs.length : ℤ) then
    .error "Too many logarithms to fit into the requested number of notes."
  else
    match gpvSearchGo logs divisions searchResolution (List.range searchResolution) with
    | some mv => .ok mv
    | none =>
      let repaired :=
        match forcedVal logs divisions, logs with
        | v0 :: rest, _ :: logsTail => v0 :: repairLoop divisions (logsTail.zip rest) [v0]
        | _, _ => []
      .ok (repaired.map fun v => mmodZ v divisions)

/-- C3: the claim (and the function's own doc comment "All forced to be
unique") promises pairwise-distinct steps whenever logs.length ≤ divisions,
but at logs = [1, 2], divisions = 2 the repair's residual sign is 0, the
displacement search never moves, and the code returns [0, 0]. -/
theorem modVal_not_unique_bug :
    modVal [(1 : ℚ), 2] 2 0 = .ok [0, 0] ∧ allUnique [0, 0] = false := by
  constructor
  · decide
  · decide

theorem mmodZ_self (d : ℤ) : mmodZ d d = 0 := by
  simp [mmodZ]

theorem jsRound_int_add (z : ℤ) (x : ℚ) (h1 : -(1/2) ≤ x) (h2 : x < 1/2) :
    jsRound ((z : ℚ) + x) = z := by
  rw [jsRound_eq]
  rw [add_assoc, Int.floor_int_add]
  have : ⌊x + (1 : ℚ)/2⌋ = 0 := by
    rw [Int.floor_eq_zero_iff]
    constructor
    · linarith
    · linarith
  rw [this, add_zero]

theorem gpvTry_head {l0 : ℚ} (ls : List ℚ) (h0 : l0 ≠ 0) {d : ℤ} {offset : ℚ}
    (ho1 : -(1/2) < offset) (ho2 : offset < 1/2) :
    (gpvTry (l0 :: ls) d offset).head? = some (mmodZ d d) := by
  unfold gpvTry
  simp only [List.map_cons, List.head?_cons, List.getD_cons_zero, Option.some.injEq]
  have hcancel : qmul l0 (qdiv (qadd ((d : ℤ) : ℚ) offset) l0) = (d : ℚ) + offset := by
    rw [qmul_eq, qdiv_eq, qadd_eq, mul_comm, div_mul_cancel₀ _ h0]
  rw [hcancel, jsRound_int_add d offset (le_of_lt ho1) ho2]

theorem gpvSearchGo_head {l0 : ℚ} {ls : List ℚ} (h0 : l0 ≠ 0) {d : ℤ} {res : ℕ} :
    ∀ is : List ℕ, (∀ i ∈ is, i < res) → ∀ mv,
      gpvSearchGo (l0 :: ls) d res is = some mv → mv.head? = some 0 := by
  intro is
  induction is with
  | nil => intro _ mv h; exact absurd h (by simp [gpvSearchGo])
  | cons i is ih =>
    intro hbound mv h
    have hi : i < res := hbound i (by simp)
    have hres : (0 : ℚ) < (res : ℚ) := by
      have : 0 < res := by omega
      exact_mod_cast this
    have hoffeq : qdiv (qmul (mkRat 1 2) ((i : ℕ) : ℚ)) ((res : ℕ) : ℚ) =
        ((1 : ℚ)/2 * i) / res := by
      rw [qdiv_eq, qmul_eq, Rat.mkRat_eq_div]
      norm_num
    have hoff_nonneg : (0 : ℚ) ≤ ((1 : ℚ)/2 * i) / res := by positivity
    have hoff_lt : ((1 : ℚ)/2 * i) / res < 1/2 := by
      rw [div_lt_iff₀ hres]
      have : (i : ℚ) < (res : ℚ) := by exact_mod_cast hi
      nlinarith
    have hb1 : -(1/2 : ℚ) < qdiv (qmul (mkRat 1 2) ((i : ℕ) : ℚ)) ((res : ℕ) : ℚ) := by
      rw [hoffeq]; linarith
    have hb2 : qdiv (qmul (mkRat 1 2) ((i : ℕ) : ℚ)) ((res : ℕ) : ℚ) < 1/2 := by
      rw [hoffeq]; exact hoff_lt
    have hb3 : -(1/2 : ℚ) < qneg (qdiv (qmul (mkRat 1 2) ((i : ℕ) : ℚ)) ((res : ℕ) : ℚ)) := by
      rw [qneg_eq, hoffeq]; linarith
    have hb4 : qneg (qdiv (qmul (mkRat 1 2) ((i : ℕ) : ℚ)) ((res : ℕ) : ℚ)) < 1/2 := by
      rw [qneg_eq, hoffeq]; linarith
    simp only [gpvSearchGo] at h
    split at h
    · cases h
      rw [gpvTry_head ls h0 hb1 hb2, mmodZ_self]
    · split at h
      · split at h
        · cases h
          rw [gpvTry_head ls h0 hb3 hb4, mmodZ_self]
        · exact ih (fun j hj => hbound j (by simp [hj])) mv h
      · exact ih (fun j hj => hbound j (by simp [hj])) mv h

/-- C10: for a nonempty logs list with logs[0] ≠ 0, positive divisions and
logs.length ≤ divisions, the first entry returned by modVal is 0 on both the
GPV-search path and the forced-repair path: the prime of equivalence always
maps to step 0. -/
theorem modVal_head_zero
    {l0 : ℚ} {ls : List ℚ} (h0 : l0 ≠ 0) {divisions : ℤ} (_hd : 0 < divisions)
    (hlen : (((l0 :: ls).length : ℕ) : ℤ) ≤ divisions) (res : ℕ) :
    ∃ out, modVal (l0 :: ls) divisions res = .ok out ∧ out.head? = some 0 := by
  have hnoerr : ¬ divisions < (((l0 :: ls).length : ℕ) : ℤ) := not_lt.mpr hlen
  unfold modVal
  rw [if_neg hnoerr]
  rcases hsearch : gpvSearchGo (l0 :: ls) divisions res (List.range res) with _ | mv
  · refine ⟨_, rfl, ?_⟩
    have hforce : forcedVal (l0 :: ls) divisions =
        jsRound (qmul l0 (qdiv ((divisions : ℤ) : ℚ) l0)) ::
          ls.map (fun l => jsRound (qmul l (qdiv ((divisions : ℤ) : ℚ) l0))) := by
      simp [forcedVal]
    have hv0 : jsRound (qmul l0 (qdiv ((divisions : ℤ) : ℚ) l0)) = divisions := by
      rw [qmul_eq, qdiv_eq, mul_comm, div_mul_cancel₀ _ h0]
      have : ((divisions : ℚ)) = ((divisions : ℚ)) + 0 := by ring
      rw [this, jsRound_int_add divisions 0 (by norm_num) (by norm_num)]
    rw [hforce]
    simp only [List.map_cons, List.head?_cons, Option.some.injEq]
    rw [hv0, mmodZ_self]
  · exact ⟨mv, rfl, gpvSearchGo_head h0 (List.range res) (by simp) mv hsearch⟩

/-- Witness for C10: modVal [1, 2] with 2 divisions (forced path) returns
[0, 0], whose first element is 0. -/
theorem modVal_head_zero_witness :
    ∃ out, modVal [(1 : ℚ), 2] 2 0 = .ok out ∧ out.head? = some 0 :=
  modVal_head_zero (by norm_num) (by norm_num) (by norm_num) 0

/-! ### Claims C5 and C6: the EdgeMerger (2D and 3D) -/

/-- A 2D edge in screen coordinates. -/
structure EdgeQ where
  x1 : ℚ
  y1 : ℚ
  x2 : ℚ
  y2 : ℚ
  type : EdgeType
deriving DecidableEq

/-- The canonical orientation chosen by mergeEdges. -/
def orientEdge (e : EdgeQ) : EdgeQ :=
  if e.x2 < e.x1 ∨ (e.x2 = e.x1 ∧ e.y2 < e.y1) then ⟨e.x2, e.y2, e.x1, e.y1, e.type⟩ else e

/-- Insertion step of the stable sort by the comparator
a.x1 - b.x1 || a.y1 - b.y1. -/
def insertEdge (e : EdgeQ) : List EdgeQ → List EdgeQ
  | [] => [e]
  | f :: fs =>
    if e.x1 < f.x1 ∨ (e.x1 = f.x1 ∧ e.y1 ≤ f.y1) then e :: f :: fs else f :: insertEdge e fs

/-- Stable sort of the oriented edges by (x1, y1); JavaScript's sort is
stable, so any stable sorting algorithm models it exactly. -/
def sortEdges (l : List EdgeQ) : List EdgeQ := l.foldr insertEdge []

/-- The inner loop of mergeEdges for one chain: scan the remaining edges in
order (the source does not skip spent edges here), absorbing any edge that
starts at the current end point, has the same type and passes the
cross-product test against the fixed head direction (dx, dy); absorbed edges
are marked spent.  Returns the final end point and the updated spent flags. -/
def chainStep (ex ey dx dy : ℚ) (ty : EdgeType) :
    List (EdgeQ × Bool) → (ℚ × ℚ) × List (EdgeQ × Bool)
  | [] => ((ex, ey), [])
  | (e, s) :: rest =>
    if e.x1 = ex ∧ e.y1 = ey ∧ e.type = ty ∧
        qmul (qsub e.x2 e.x1) dy = qmul dx (qsub e.y2 e.y1) then
      let r := chainStep e.x2 e.y2 dx dy ty rest
      (r.1, (e, true) :: r.2)
    else
      let r := chainStep ex ey dx dy ty rest
      (r.1, (e, s) :: r.2)

theorem chainStep_length (ex ey dx dy : ℚ) (ty : EdgeType) (l : List (EdgeQ × Bool)) :
    ((chainStep ex ey dx dy ty l).2).length = l.length := by
  induction l generalizing ex ey with
  | nil => rfl
  | cons p rest ih =>
    obtain ⟨e, s⟩ := p
    rw [chainStep]
    split
    · simpa using ih e.x2 e.y2
    · simpa using ih ex ey

/-- The outer loop of mergeEdges: each unspent edge heads a chain.  The fuel
argument (instantiated with the list length, which chainStep preserves) makes
the recursion structural. -/
def mergeScanFuel : ℕ → List (EdgeQ × Bool) → List EdgeQ
  | 0, _ => []
  | _ + 1, [] => []
  | fuel + 1, (_, true) :: rest => mergeScanFuel fuel rest
  | fuel + 1, (e, false) :: rest =>
    let r := chainStep e.x2 e.y2 (qsub e.x2 e.x1) (qsub e.y2 e.y1) e.type rest
    ⟨e.x1, e.y1, r.1.1, r.1.2, e.type⟩ :: mergeScanFuel fuel r.2

def mergeScan (l : List (EdgeQ × Bool)) : List EdgeQ := mergeScanFuel l.length l

/-- mergeEdges from src/index.ts. -/
def mergeEdges (edges : List EdgeQ) : List EdgeQ :=
  mergeScan ((sortEdges (edges.map orientEdge)).map fun e => (e, false))

/-- Lexicographic order on screen points: the order of the canonical
orientation and of the (x1, y1) sort key of mergeEdges. -/
def pointLe (p q : ℚ × ℚ) : Prop := p.1 < q.1 ∨ (p.1 = q.1 ∧ p.2 ≤ q.2)

/-- An edge already respects the canonical orientation chosen by mergeEdges. -/
def edgeOriented (e : EdgeQ) : Prop := pointLe (e.x1, e.y1) (e.x2, e.y2)

/-- Comparison of edge start points, the sort key of mergeEdges. -/
def startLe (a b : EdgeQ) : Prop := pointLe (a.x1, a.y1) (b.x1, b.y1)

/-- b would not be absorbed into a chain headed by a whose end point has not
moved: b fails to start at a's end point with a's type and pass the
cross-product test against a's direction. -/
def noAbsorb (a b : EdgeQ) : Prop :=
  ¬ (b.x1 = a.x2 ∧ b.y1 = a.y2 ∧ b.type = a.type ∧
    qmul (qsub b.x2 b.x1) (qsub a.y2 a.y1) = qmul (qsub a.x2 a.x1) (qsub b.y2 b.y1))

/-- A 3D edge in screen coordinates. -/
structure Edge3Q where
  x1 : ℚ
  y1 : ℚ
  z1 : ℚ
  x2 : ℚ
  y2 : ℚ
  z2 : ℚ
  type : EdgeType
deriving DecidableEq

/-- The canonical orientation chosen by mergeEdges3D (the third disjunct
compares y2 = y1 without requiring x2 = x1, exactly as the source does). -/
def orientEdge3 (e : Edge3Q) : Edge3Q :=
  if e.x2 < e.x1 ∨ (e.x2 = e.x1 ∧ e.y2 < e.y1) ∨ (e.y2 = e.y1 ∧ e.z2 < e.z1) then
    ⟨e.x2, e.y2, e.z2, e.x1, e.y1, e.z1, e.type⟩
  else e

/-- Insertion step of the stable sort by (x1, y1, z1). -/
def insertEdge3 (e : Edge3Q) : List Edge3Q → List Edge3Q
  | [] => [e]
  | f :: fs =>
    if e.x1 < f.x1 ∨ (e.x1 = f.x1 ∧ (e.y1 < f.y1 ∨ (e.y1 = f.y1 ∧ e.z1 ≤ f.z1))) then
      e :: f :: fs
    else f :: insertEdge3 e fs

def sortEdges3 (l : List Edge3Q) : List Edge3Q := l.foldr insertEdge3 []

/-- The inner loop of mergeEdges3D for one chain.  The absorption test is
transcribed verbatim from the source: it compares e.z1 with e.z2 (not with
the chain's current z end point), and the second collinearity equation reads
dex * dz === dz * dez (not dx * dez); no test involves dey together with dz. -/
def chainStep3 (ex ey ez dx dy dz : ℚ) (ty : EdgeType) :
    List (Edge3Q × Bool) → (ℚ × ℚ × ℚ) × List (Edge3Q × Bool)
  | [] => ((ex, ey, ez), [])
  | (e, s) :: rest =>
    if e.x1 = ex ∧ e.y1 = ey ∧ e.z1 = e.z2 ∧ e.type = ty ∧
        qmul (qsub e.x2 e.x1) dy = qmul dx (qsub e.y2 e.y1) ∧
        qmul (qsub e.x2 e.x1) dz = qmul dz (qsub e.z2 e.z1) then
      let r := chainStep3 e.x2 e.y2 e.z2 dx dy dz ty rest
      (r.1, (e, true) :: r.2)
    else
      let r := chainStep3 ex ey ez dx dy dz ty rest
      (r.1, (e, s) :: r.2)

theorem chainStep3_length (ex ey ez dx dy dz : ℚ) (ty : EdgeType)
    (l : List (Edge3Q × Bool)) :
    ((chainStep3 ex ey ez dx dy dz ty l).2).length = l.length := by
  induction l generalizing ex ey ez with
  | nil => rfl
  | cons p rest ih =>
    obtain ⟨e, s⟩ := p
    rw [chainStep3]
    split
    · simpa using ih e.x2 e.y2 e.z2
    · simpa using ih ex ey ez

def mergeScan3Fuel : ℕ → List (Edge3Q × Bool) → List Edge3Q
  | 0, _ => []
  | _ + 1, [] => []
  | fuel + 1, (_, true) :: rest => mergeScan3Fuel fuel rest
  | fuel + 1, (e, false) :: rest =>
    let r := chainStep3 e.x2 e.y2 e.z2 (qsub e.x2 e.x1) (qsub e.y2 e.y1) (qsub e.z2 e.z1)
      e.type rest
    ⟨e.x1, e.y1, e.z1, r.1.1, r.1.2.1, r.1.2.2, e.type⟩ :: mergeScan3Fuel fuel r.2

def mergeScan3 (l : List (Edge3Q × Bool)) : List Edge3Q := mergeScan3Fuel l.length l

/-- mergeEdges3D from src/lattice-3d.ts. -/
def mergeEdges3D (edges : List Edge3Q) : List Edge3Q :=
  mergeScan3 ((sortEdges3 (edges.map orientEdge3)).map fun e => (e, false))

/-- C6: the claim (and the doc comment "Combine edges that share an endpoint
and slope") requires absorption only when the candidate starts at the chain's
current endpoint in all three coordinates and is collinear on all three
coordinate planes.  The code instead tests e.z1 === e.z2, uses
dex*dz === dz*dez for the second plane and never tests the yz plane: the two
disconnected edges (0,0,0)-(1,0,0) and (1,0,5)-(2,0,5) — whose start
(1,0,5) differs from the chain endpoint (1,0,0) in z — are merged into the
single edge (0,0,0)-(2,0,5). -/
theorem mergeEdges3D_z_bug :
    mergeEdges3D
        [⟨0, 0, 0, 1, 0, 0, .primary⟩, ⟨1, 0, 5, 2, 0, 5, .primary⟩] =
      [⟨0, 0, 0, 2, 0, 5, .primary⟩] ∧
    ((1 : ℚ), (0 : ℚ), (5 : ℚ)) ≠ ((1 : ℚ), (0 : ℚ), (0 : ℚ)) := by
  constructor
  · decide
  · decide

/-! ### Claims C7, C8 and C9: the GridSpanner -/

/-- Options for gridlines of spanGrid; absent flags are falsy. -/
structure GridLineOptions where
  delta1 : Bool := false
  delta2 : Bool := false
  diagonal1 : Bool := false
  diagonal2 : Bool := false
deriving DecidableEq

/-- Options for spanGrid.  The search range is modelled as a natural number
(the loops step the counter by one from -range to range). -/
structure GridOptions where
  modulus : ℚ
  delta1 : ℚ
  delta1X : ℚ
  delta1Y : ℚ
  delta2 : ℚ
  delta2X : ℚ
  delta2Y : ℚ
  minX : ℚ
  maxX : ℚ
  minY : ℚ
  maxY : ℚ
  edgeVectors : Option (List (ℚ × ℚ)) := none
  gridLines : Option GridLineOptions := none
  mergeEdges : Bool := false
  range : ℕ := 100
  maxVertices : ℕ := 1000
  maxEdges : ℕ := 2000
deriving DecidableEq

/-- A vertex of the grid carrying all input indices that land on it. -/
structure MultiVertex where
  x : ℚ
  y : ℚ
  indices : List ℕ
deriving DecidableEq

/-- The integers a, a+1, …, b (empty when b < a). -/
def intRange (a b : ℤ) : List ℤ := (List.range (b - a + 1).toNat).map fun k => a + (k : ℤ)

/-- All (i, j) with |i|, |j| ≤ range in the double loop's visiting order. -/
def gridPairs (range : ℕ) : List (ℤ × ℤ) :=
  (intRange (-(range : ℤ)) range).flatMap fun i =>
    (intRange (-(range : ℤ)) range).map fun j => (i, j)

/-- Append idx to the entry of key, preserving first-occurrence key order
(the JavaScript Map's insertion order). -/
def insertIndexed (key : ℚ) (idx : ℕ) : List (ℚ × List ℕ) → List (ℚ × List ℕ)
  | [] => [(key, [idx])]
  | (k, v) :: rest =>
    if k = key then (k, v ++ [idx]) :: rest else (k, v) :: insertIndexed key idx rest

/-- Lexicographic comparison of character lists (JavaScript string <). -/
def charListLt : List Char → List Char → Bool
  | [], [] => false
  | [], _ :: _ => true
  | _ :: _, [] => false
  | c :: cs, d :: ds => if c = d then charListLt cs ds else decide (c < d)

/-- idxs.sort() with no comparator sorts by decimal-string order. -/
def insertNatStr (n : ℕ) : List ℕ → List ℕ
  | [] => [n]
  | m :: ms =>
    if charListLt (Nat.toDigits 10 m) (Nat.toDigits 10 n) then m :: insertNatStr n ms
    else n :: m :: ms

def sortNatStr (l : List ℕ) : List ℕ := l.foldr insertNatStr []

/-- The indices map of spanGrid: group input positions by reduced step, then
sort each group by JavaScript's default (string) order. -/
def buildIndices (steps : List ℚ) : List (ℚ × List ℕ) :=
  (steps.enum.foldl (fun m si => insertIndexed si.2 si.1 m) []).map
    fun kv => (kv.1, sortNatStr kv.2)

def lookupIndices (m : List (ℚ × List ℕ)) (key : ℚ) : Option (List ℕ) :=
  (m.find? fun kv => kv.1 = key).map fun kv => kv.2

/-- Viewport membership. -/
def insideBox (minX maxX minY maxY x y : ℚ) : Prop :=
  minX ≤ x ∧ x ≤ maxX ∧ minY ≤ y ∧ y ≤ maxY

instance (minX maxX minY maxY x y : ℚ) :
    Decidable (insideBox minX maxX minY maxY x y) := by
  unfold insideBox
  infer_instance

/-- The vertex enumeration of spanGrid: visit (i, j) pairs in loop order; a
matching in-view pair pushes a vertex; reaching maxVertices, or either
generator having zero screen displacement, stops the whole search. -/
def gridVertexStep (o : GridOptions) (indices : List (ℚ × List ℕ))
    (st : List MultiVertex × Bool) (ij : ℤ × ℤ) : List MultiVertex × Bool :=
  if st.2 then st
  else
    let x := qadd (qmul o.delta1X ((ij.1 : ℤ) : ℚ)) (qmul o.delta2X ((ij.2 : ℤ) : ℚ))
    let y := qadd (qmul o.delta1Y ((ij.1 : ℤ) : ℚ)) (qmul o.delta2Y ((ij.2 : ℤ) : ℚ))
    if insideBox o.minX o.maxX o.minY o.maxY x y then
      let step := mmodQ (qadd (qmul o.delta1 ((ij.1 : ℤ) : ℚ)) (qmul o.delta2 ((ij.2 : ℤ) : ℚ)))
        o.modulus
      match lookupIndices indices step with
      | some idxs =>
        let vs := st.1 ++ [⟨x, y, idxs⟩]
        (vs,
          if o.maxVertices ≤ vs.length ∨ (o.delta1X = 0 ∧ o.delta1Y = 0) ∨
              (o.delta2X = 0 ∧ o.delta2Y = 0) then true else false)
      | none => st
    else st

def gridVertexSearch (o : GridOptions) (indices : List (ℚ × List ℕ)) : List MultiVertex :=
  ((gridPairs o.range).foldl (gridVertexStep o indices) ([], false)).1

/-- The custom-edge search without merging: for every ordered vertex pair and
every (signed) edge vector, matching screen differences push a custom edge;
reaching maxEdges stops the whole search. -/
def customEdgesPlain (o : GridOptions) (vertices : List MultiVertex)
    (evs : List (ℚ × ℚ)) : List EdgeQ :=
  ((pairList vertices.length).foldl
    (fun st ij =>
      if st.2 then st
      else
        let vi := vertices.getD ij.1 ⟨0, 0, []⟩
        let vj := vertices.getD ij.2 ⟨0, 0, []⟩
        evs.foldl
          (fun st2 ev =>
            if st2.2 then st2
            else if qsub vi.x vj.x = ev.1 ∧ qsub vi.y vj.y = ev.2 then
              let es := st2.1 ++ [⟨vi.x, vi.y, vj.x, vj.y, .custom⟩]
              (es, if o.maxEdges ≤ es.length then true else false)
            else st2)
          st)
    ([], false)).1

/-- The inner j-loop of the merging custom-edge search: extend the run
forward from (x2, y2) and backward from (x1, y1), marking absorbed vertices
spent. -/
def mergeRunStep (vertices : List MultiVertex) (vx vy : ℚ)
    (st : ℚ × ℚ × ℚ × ℚ × List ℕ) (j : ℕ) : ℚ × ℚ × ℚ × ℚ × List ℕ :=
  let vj := vertices.getD j ⟨0, 0, []⟩
  let st1 :=
    if qsub vj.x st.2.2.1 = vx ∧ qsub vj.y st.2.2.2.1 = vy then
      (st.1, st.2.1, vj.x, vj.y, st.2.2.2.2 ++ [j])
    else st
  if qsub st1.1 vj.x = vx ∧ qsub st1.2.1 vj.y = vy then
    (vj.x, vj.y, st1.2.2.1, st1.2.2.2.1, st1.2.2.2.2 ++ [j])
  else st1

/-- One edge vector's pass of the merging custom-edge search: a fresh spent
set, one maximal run per unspent vertex, one custom edge per run that moved
an endpoint; the maxEdges ceiling is checked after every vertex. -/
def customEdgesMergeVec (o : GridOptions) (vertices : List MultiVertex) (ev : ℚ × ℚ)
    (edges0 : List EdgeQ) : List EdgeQ × Bool :=
  let r := (List.range vertices.length).foldl
    (fun st2 i =>
      if st2.2.1 then st2
      else if i ∈ st2.2.2 then st2
      else
        let vi := vertices.getD i ⟨0, 0, []⟩
        let run := (List.range' (i + 1) (vertices.length - (i + 1))).foldl
          (mergeRunStep vertices ev.1 ev.2) (vi.x, vi.y, vi.x, vi.y, st2.2.2)
        let es :=
          if run.1 ≠ run.2.2.1 ∨ run.2.1 ≠ run.2.2.2.1 then
            st2.1 ++ [⟨run.1, run.2.1, run.2.2.1, run.2.2.2.1, .custom⟩]
          else st2.1
        (es, (if o.maxEdges ≤ es.length then true else false), run.2.2.2.2))
    (edges0, false, ([] : List ℕ))
  (r.1, r.2.1)

/-- The merging custom-edge search over all edge vectors; reaching maxEdges
breaks out of the outer vector loop as well. -/
def customEdgesMerge (o : GridOptions) (vertices : List MultiVertex)
    (evs : List (ℚ × ℚ)) : List EdgeQ :=
  (evs.foldl
    (fun st ev => if st.2 then st else customEdgesMergeVec o vertices ev st.1)
    (([] : List EdgeQ), false)).1

/-- Steps of the second gridline phase that are guaranteed to leave the
viewport: crossing the whole box in the direction of the nonzero component
takes at most this many unit steps of (vX, vY). -/
def escapeFuel (o : GridOptions) (vX vY : ℚ) : ℕ :=
  if vX ≠ 0 then (Rat.ceil (qdiv (qsub o.maxX o.minX) (qabs vX))).toNat + 2
  else (Rat.ceil (qdiv (qsub o.maxY o.minY) (qabs vY))).toNat + 2

/-- The second phase of gridline: advance j while the position stays inside
the viewport; returns the first j outside.  The source's while loop is
unbounded; the fuel above suffices because each step moves the position by
the fixed nonzero vector (vX, vY). -/
def advanceOut (o : GridOptions) (uX uY vX vY : ℚ) : ℕ → ℤ → ℤ
  | 0, j => j
  | fuel + 1, j =>
    if insideBox o.minX o.maxX o.minY o.maxY
        (qadd uX (qmul vX ((j : ℤ) : ℚ))) (qadd uY (qmul vY ((j : ℤ) : ℚ))) then
      advanceOut o uX uY vX vY fuel (j + 1)
    else j

/-- gridline from src/index.ts: find the first parameter j in [-range, range]
whose position is inside the viewport (else no line); the segment runs from
one step before that entry point to the first point outside. -/
def gridline (uX uY vX vY : ℚ) (o : GridOptions) : Option EdgeQ :=
  if vX = 0 ∧ vY = 0 then none
  else
    match (intRange (-(o.range : ℤ)) o.range).find?
        (fun (j : ℤ) => decide (insideBox o.minX o.maxX o.minY o.maxY
          (qadd uX (qmul vX ((j : ℤ) : ℚ))) (qadd uY (qmul vY ((j : ℤ) : ℚ))))) with
    | none => none
    | some j0 =>
      let j1 := advanceOut o uX uY vX vY (escapeFuel o vX vY) j0
      some ⟨qadd uX (qmul vX ((j0 - 1 : ℤ) : ℚ)), qadd uY (qmul vY ((j0 - 1 : ℤ) : ℚ)),
            qadd uX (qmul vX ((j1 : ℤ) : ℚ)), qadd uY (qmul vY ((j1 : ℤ) : ℚ)), .gridline⟩

/-- The first gridline loop (delta1-direction lines, offset along delta2):
stops when maxEdges is reached, and after one iteration when delta2 has zero
screen displacement. -/
def gridlineLoop1 (o : GridOptions) (gl : GridLineOptions) (edges0 : List EdgeQ) :
    List EdgeQ :=
  ((intRange (-(o.range : ℤ)) o.range).foldl
    (fun st i =>
      if st.2 then st
      else if o.maxEdges ≤ st.1.length then (st.1, true)
      else
        let es :=
          if gl.delta1 then
            st.1 ++ (gridline (qmul o.delta2X ((i : ℤ) : ℚ)) (qmul o.delta2Y ((i : ℤ) : ℚ))
              o.delta1X o.delta1Y o).toList
          else st.1
        (es, if o.delta2X = 0 ∧ o.delta2Y = 0 then true else false))
    (edges0, false)).1

/-- The second gridline loop (delta2, diagonal1 and diagonal2 lines, offset
along delta1): up to three pushes per iteration after a single ceiling check;
stops after one iteration when delta1 has zero screen displacement. -/
def gridlineLoop2 (o : GridOptions) (gl : GridLineOptions) (edges0 : List EdgeQ) :
    List EdgeQ :=
  ((intRange (-(o.range : ℤ)) o.range).foldl
    (fun st i =>
      if st.2 then st
      else if o.maxEdges ≤ st.1.length then (st.1, true)
      else
        let uX := qmul o.delta1X ((i : ℤ) : ℚ)
        let uY := qmul o.delta1Y ((i : ℤ) : ℚ)
        let es1 := if gl.delta2 then st.1 ++ (gridline uX uY o.delta2X o.delta2Y o).toList
          else st.1
        let es2 := if gl.diagonal1 then
            es1 ++ (gridline uX uY (qsub o.delta1X o.delta2X) (qsub o.delta1Y o.delta2Y) o).toList
          else es1
        let es3 := if gl.diagonal2 then
            es2 ++ (gridline uX uY (qadd o.delta1X o.delta2X) (qadd o.delta1Y o.delta2Y) o).toList
          else es2
        (es3, if o.delta1X = 0 ∧ o.delta1Y = 0 then true else false))
    (edges0, false)).1

structure GridOut where
  vertices : List MultiVertex
  edges : List EdgeQ
deriving DecidableEq

/-- spanGrid from src/index.ts. -/
def spanGrid (steps : List ℚ) (o : GridOptions) : GridOut :=
  let reduced := steps.map fun s => mmodQ s o.modulus
  let indices := buildIndices reduced
  let vertices := gridVertexSearch o indices
  let customEdges :=
    match o.edgeVectors with
    | none => []
    | some evs =>
      if o.mergeEdges then customEdgesMerge o vertices evs
      else customEdgesPlain o vertices (evs ++ evs.map fun ev => (-ev.1, -ev.2))
  let allEdges :=
    match o.gridLines with
    | none => customEdges
    | some gl => gridlineLoop2 o gl (gridlineLoop1 o gl customEdges)
  ⟨vertices, allEdges⟩

/-- Whether a coefficient pair qualifies in the shortestEdge search: position
inside the doubled viewport, lattice step in the requested class. -/
def shortestEdgeQualifies (st : ℚ) (o : GridOptions) (ij : ℤ × ℤ) : Prop :=
  insideBox (qmul 2 o.minX) (qmul 2 o.maxX) (qmul 2 o.minY) (qmul 2 o.maxY)
      (qadd (qmul o.delta1X ((ij.1 : ℤ) : ℚ)) (qmul o.delta2X ((ij.2 : ℤ) : ℚ)))
      (qadd (qmul o.delta1Y ((ij.1 : ℤ) : ℚ)) (qmul o.delta2Y ((ij.2 : ℤ) : ℚ))) ∧
    mmodQ (qadd (qmul o.delta1 ((ij.1 : ℤ) : ℚ)) (qmul o.delta2 ((ij.2 : ℤ) : ℚ))) o.modulus = st

instance (st : ℚ) (o : GridOptions) (ij : ℤ × ℤ) :
    Decidable (shortestEdgeQualifies st o ij) := by
  unfold shortestEdgeQualifies
  infer_instance

/-- One step of the shortestEdge vertex enumeration. -/
def shortestCandStep (st : ℚ) (o : GridOptions) (acc : List (ℚ × ℚ) × Bool) (ij : ℤ × ℤ) :
    List (ℚ × ℚ) × Bool :=
  if acc.2 then acc
  else if shortestEdgeQualifies st o ij then
    let vs := acc.1 ++
      [(qadd (qmul o.delta1X ((ij.1 : ℤ) : ℚ)) (qmul o.delta2X ((ij.2 : ℤ) : ℚ)),
        qadd (qmul o.delta1Y ((ij.1 : ℤ) : ℚ)) (qmul o.delta2Y ((ij.2 : ℤ) : ℚ)))]
    (vs,
      if o.maxVertices ≤ vs.length ∨ (o.delta1X = 0 ∧ o.delta1Y = 0) ∨
          (o.delta2X = 0 ∧ o.delta2Y = 0) then true else false)
  else acc

/-- The vertex enumeration of shortestEdge over the doubled viewport. -/
def shortestEdgeCandidates (st : ℚ) (o : GridOptions) : List (ℚ × ℚ) :=
  ((gridPairs o.range).foldl (shortestCandStep st o) ([], false)).1

/-- The minimum-norm scan of shortestEdge: strict improvement only, so the
first candidate replaces the Infinity sentinel and ties keep the earlier
candidate. -/
def minNormFold (vs : List (ℚ × ℚ)) : Option (ℚ × ℚ) :=
  (vs.foldl
    (fun best v =>
      match best with
      | none => some v
      | some b =>
        if qadd (qmul v.1 v.1) (qmul v.2 v.2) < qadd (qmul b.1 b.1) (qmul b.2 b.2) then some v
        else some b)
    none)

/-- shortestEdge from src/index.ts. -/
def shortestEdge (step : ℚ) (o : GridOptions) : Except String (ℚ × ℚ) :=
  let st := mmodQ step o.modulus
  let vertices := shortestEdgeCandidates st o
  match minNormFold vertices with
  | none => .error "Step not found on grid."
  | some xy => .ok xy

/-- C7: the claim (and the option's doc comment "Maximum number of edges to
return") promises at most maxEdges edges, but the second gridline loop checks
the ceiling only once per iteration and then pushes up to three gridlines:
with maxEdges = 1 and delta2, diagonal1 and diagonal2 lines all requested,
spanGrid returns 3 edges. -/
theorem spanGrid_maxEdges_bug :
    (spanGrid [0]
      { modulus := 1, delta1 := 1, delta1X := 1, delta1Y := 0,
        delta2 := 0, delta2X := 0, delta2Y := 1,
        minX := -10, maxX := 10, minY := -10, maxY := 10,
        edgeVectors := none, gridLines := some ⟨false, true, true, true⟩,
        mergeEdges := false, range := 2, maxVertices := 1000,
        maxEdges := 1 }).edges.length = 3 := by
  decide

theorem foldl_invariant {α β : Type _} (P : α → Prop) (f : α → β → α) (l : List β)
    (init : α) (h0 : P init) (hstep : ∀ a b, P a → P (f a b)) : P (l.foldl f init) := by
  induction l generalizing init with
  | nil => exact h0
  | cons b rest ih => exact ih (f init b) (hstep init b h0)

theorem gridVertexStep_bound (o : GridOptions) (indices : List (ℚ × List ℕ))
    (_hmv : 1 ≤ o.maxVertices) (st : List MultiVertex × Bool) (ij : ℤ × ℤ)
    (h : (st.2 = false → st.1.length < o.maxVertices) ∧ st.1.length ≤ o.maxVertices) :
    ((gridVertexStep o indices st ij).2 = false →
      (gridVertexStep o indices st ij).1.length < o.maxVertices) ∧
    (gridVertexStep o indices st ij).1.length ≤ o.maxVertices := by
  unfold gridVertexStep
  rcases hflag : st.2 with _ | _
  · simp only [hflag, Bool.false_eq_true, if_false]
    have hlt := h.1 hflag
    split
    · split
      · split
        · refine ⟨fun hf => absurd hf (by simp), ?_⟩
          simp only [List.length_append, List.length_cons, List.length_nil]
          omega
        · rename_i hcond
          push_neg at hcond
          have hc1 := hcond.1
          refine ⟨fun _ => ?_, ?_⟩ <;>
            simp only [List.length_append, List.length_cons, List.length_nil] at hc1 ⊢ <;>
            omega
      · exact ⟨fun _ => hlt, h.2⟩
    · exact ⟨fun _ => hlt, h.2⟩
  · simp only [hflag, if_true]
    exact ⟨fun hf => absurd hf (by simp), h.2⟩

/-- C8: the vertex enumeration of spanGrid stops as soon as maxVertices
vertices have been pushed (so with a positive ceiling at most maxVertices
vertices are returned), and stops at the first pushed vertex when either
generator's screen displacement is zero in both axes (so at most one vertex
is returned in the degenerate case). -/
theorem spanGrid_vertex_stops (steps : List ℚ) (o : GridOptions) :
    (1 ≤ o.maxVertices → (spanGrid steps o).vertices.length ≤ o.maxVertices) ∧
    (((o.delta1X = 0 ∧ o.delta1Y = 0) ∨ (o.delta2X = 0 ∧ o.delta2Y = 0)) →
      (spanGrid steps o).vertices.length ≤ 1) := by
  have hv : (spanGrid steps o).vertices =
      ((gridPairs o.range).foldl
        (gridVertexStep o (buildIndices (steps.map fun s => mmodQ s o.modulus)))
        ([], false)).1 := rfl
  rw [hv]
  set indices := buildIndices (steps.map fun s => mmodQ s o.modulus) with hidx
  constructor
  · intro hmv
    have hinv := foldl_invariant
      (fun st : List MultiVertex × Bool =>
        (st.2 = false → st.1.length < o.maxVertices) ∧ st.1.length ≤ o.maxVertices)
      (gridVertexStep o indices) (gridPairs o.range) ([], false)
      ⟨fun _ => by simpa using hmv, by simp⟩
      (fun st ij h => gridVertexStep_bound o indices hmv st ij h)
    exact hinv.2
  · intro hdeg
    have hinv := foldl_invariant
      (fun st : List MultiVertex × Bool =>
        (st.2 = false → st.1.length = 0) ∧ st.1.length ≤ 1)
      (gridVertexStep o indices) (gridPairs o.range) ([], false)
      ⟨fun _ => by simp, by simp⟩
      (fun st ij h => by
        unfold gridVertexStep
        rcases hflag : st.2 with _ | _
        · simp only [hflag, Bool.false_eq_true, if_false]
          have h0 := h.1 hflag
          split
          · split
            · split
              · refine ⟨fun hf => absurd hf (by simp), ?_⟩
                simp only [List.length_append, List.length_cons, List.length_nil]
                omega
              · rename_i hcond
                exact absurd (Or.inr hdeg) hcond
            · exact ⟨fun _ => h0, h.2⟩
          · exact ⟨fun _ => h0, h.2⟩
        · simp only [hflag, if_true]
          exact ⟨fun hf => absurd hf (by simp), h.2⟩)
    exact hinv.2

/-- Witness for C8: a configuration with a degenerate first generator stops
the search at its first vertex, and the positive ceiling holds. -/
theorem spanGrid_vertex_stops_witness :
    ((1 : ℕ) ≤ 1000 →
      (spanGrid [0]
        { modulus := 1, delta1 := 1, delta1X := 0, delta1Y := 0,
          delta2 := 0, delta2X := 0, delta2Y := 1,
          minX := -5, maxX := 5, minY := -5, maxY := 5,
          range := 1 }).vertices.length ≤ 1000) ∧
    ((((0 : ℚ) = 0 ∧ (0 : ℚ) = 0) ∨ ((0 : ℚ) = 0 ∧ (1 : ℚ) = 0)) →
      (spanGrid [0]
        { modulus := 1, delta1 := 1, delta1X := 0, delta1Y := 0,
          delta2 := 0, delta2X := 0, delta2Y := 1,
          minX := -5, maxX := 5, minY := -5, maxY := 5,
          range := 1 }).vertices.length ≤ 1) :=
  spanGrid_vertex_stops [0]
    { modulus := 1, delta1 := 1, delta1X := 0, delta1Y := 0,
      delta2 := 0, delta2X := 0, delta2Y := 1,
      minX := -5, maxX := 5, minY := -5, maxY := 5,
      range := 1 }

theorem shortestCandStep_flag {st : ℚ} {o : GridOptions} {acc : List (ℚ × ℚ) × Bool}
    {ij : ℤ × ℤ} (h : acc.2 = true → acc.1 ≠ []) :
    (shortestCandStep st o acc ij).2 = true → (shortestCandStep st o acc ij).1 ≠ [] := by
  unfold shortestCandStep
  split
  · exact h
  · split
    · intro _
      simp
    · exact h

theorem shortestCand_empty_all {st : ℚ} {o : GridOptions} :
    ∀ (l : List (ℤ × ℤ)) (acc : List (ℚ × ℚ) × Bool), (acc.2 = true → acc.1 ≠ []) →
      (l.foldl (shortestCandStep st o) acc).1 = [] →
      acc.1 = [] ∧ ∀ p ∈ l, ¬ shortestEdgeQualifies st o p := by
  intro l
  induction l with
  | nil =>
    intro acc _ hf
    exact ⟨hf, by simp⟩
  | cons p rest ih =>
    intro acc hflag hfold
    rw [List.foldl_cons] at hfold
    obtain ⟨hacc', hrest⟩ := ih (shortestCandStep st o acc p) (shortestCandStep_flag hflag) hfold
    have hsplit : acc.1 = [] ∧ ¬ shortestEdgeQualifies st o p := by
      by_cases hb : acc.2 = true
      · have := hflag hb
        unfold shortestCandStep at hacc'
        rw [if_pos hb] at hacc'
        exact absurd hacc' this
      · unfold shortestCandStep at hacc'
        rw [if_neg hb] at hacc'
        by_cases hq : shortestEdgeQualifies st o p
        · rw [if_pos hq] at hacc'
          exact absurd hacc' (by simp)
        · rw [if_neg hq] at hacc'
          exact ⟨hacc', hq⟩
    refine ⟨hsplit.1, ?_⟩
    intro q hq
    rcases List.mem_cons.mp hq with rfl | hq
    · exact hsplit.2
    · exact hrest q hq

theorem shortestCand_no_qual {st : ℚ} {o : GridOptions} :
    ∀ (l : List (ℤ × ℤ)) (acc : List (ℚ × ℚ) × Bool),
      (∀ p ∈ l, ¬ shortestEdgeQualifies st o p) →
      l.foldl (shortestCandStep st o) acc = acc := by
  intro l
  induction l with
  | nil => intro acc _; rfl
  | cons p rest ih =>
    intro acc hall
    rw [List.foldl_cons]
    have hstep : shortestCandStep st o acc p = acc := by
      unfold shortestCandStep
      split
      · rfl
      · rw [if_neg (hall p (by simp))]
    rw [hstep]
    exact ih acc fun q hq => hall q (by simp [hq])

theorem minNormFold_some {r : ℚ × ℚ} :
    ∀ (l : List (ℚ × ℚ)) (b : ℚ × ℚ),
      l.foldl
        (fun best v =>
          match best with
          | none => some v
          | some b =>
            if qadd (qmul v.1 v.1) (qmul v.2 v.2) < qadd (qmul b.1 b.1) (qmul b.2 b.2) then some v
            else some b)
        (some b) = some r →
      (r = b ∨ r ∈ l) ∧
        qadd (qmul r.1 r.1) (qmul r.2 r.2) ≤ qadd (qmul b.1 b.1) (qmul b.2 b.2) ∧
        ∀ v ∈ l, qadd (qmul r.1 r.1) (qmul r.2 r.2) ≤ qadd (qmul v.1 v.1) (qmul v.2 v.2) := by
  intro l
  induction l with
  | nil =>
    intro b h
    simp only [List.foldl_nil, Option.some.injEq] at h
    exact ⟨Or.inl h.symm, by rw [h], by simp⟩
  | cons v rest ih =>
    intro b h
    rw [List.foldl_cons] at h
    by_cases hlt : qadd (qmul v.1 v.1) (qmul v.2 v.2) < qadd (qmul b.1 b.1) (qmul b.2 b.2)
    · simp only [hlt, if_true] at h
      obtain ⟨hmem, hle, hall⟩ := ih v h
      have hmem' : r ∈ v :: rest := by
        rcases hmem with rfl | hm
        · exact List.mem_cons_self _ _
        · exact List.mem_cons_of_mem _ hm
      refine ⟨Or.inr hmem', le_trans hle (le_of_lt hlt), ?_⟩
      intro w hw
      rcases List.mem_cons.mp hw with rfl | hw
      · exact hle
      · exact hall w hw
    · simp only [hlt, if_false] at h
      obtain ⟨hmem, hle, hall⟩ := ih b h
      have hmem' : r = b ∨ r ∈ v :: rest := by
        rcases hmem with rfl | hm
        · exact Or.inl rfl
        · exact Or.inr (List.mem_cons_of_mem _ hm)
      refine ⟨hmem', hle, ?_⟩
      intro w hw
      rcases List.mem_cons.mp hw with rfl | hw
      · exact le_trans hle (not_lt.mp hlt)
      · exact hall w hw

/-- C9: shortestEdge fails with the NotFound error exactly when no coefficient
pair (i, j) with |i|, |j| ≤ range lands inside the doubled viewport with the
requested step class; otherwise it returns a displacement of minimal L2 norm
(measured from the origin) among the candidates its bounded enumeration
produced. -/
theorem shortestEdge_spec (step : ℚ) (o : GridOptions) :
    (shortestEdge step o = .error "Step not found on grid." ↔
      ∀ p ∈ gridPairs o.range, ¬ shortestEdgeQualifies (mmodQ step o.modulus) o p) ∧
    (∀ xy, shortestEdge step o = .ok xy →
      xy ∈ shortestEdgeCandidates (mmodQ step o.modulus) o ∧
      ∀ v ∈ shortestEdgeCandidates (mmodQ step o.modulus) o,
        qadd (qmul xy.1 xy.1) (qmul xy.2 xy.2) ≤ qadd (qmul v.1 v.1) (qmul v.2 v.2)) := by
  constructor
  · constructor
    · intro herr
      simp only [shortestEdge] at herr
      rcases hfold : minNormFold (shortestEdgeCandidates (mmodQ step o.modulus) o) with _ | xy
      · have hempty : shortestEdgeCandidates (mmodQ step o.modulus) o = [] := by
          rcases hcand : shortestEdgeCandidates (mmodQ step o.modulus) o with _ | ⟨v, rest⟩
          · rfl
          · rw [hcand] at hfold
            simp only [minNormFold, List.foldl_cons] at hfold
            have hsome : ∀ (l : List (ℚ × ℚ)) (b : ℚ × ℚ),
                l.foldl
                  (fun best v =>
                    match best with
                    | none => some v
                    | some b =>
                      if qadd (qmul v.1 v.1) (qmul v.2 v.2) <
                          qadd (qmul b.1 b.1) (qmul b.2 b.2) then some v
                      else some b)
                  (some b) ≠ none := by
              intro l
              induction l with
              | nil => intro b h; exact absurd h (by simp)
              | cons w r ihw =>
                intro b h
                rw [List.foldl_cons] at h
                by_cases hlt : qadd (qmul w.1 w.1) (qmul w.2 w.2) <
                    qadd (qmul b.1 b.1) (qmul b.2 b.2)
                · simp only [hlt, if_true] at h
                  exact ihw w h
                · simp only [hlt, if_false] at h
                  exact ihw b h
            exact absurd hfold (hsome rest v)
        exact (shortestCand_empty_all (gridPairs o.range) ([], false) (by simp) hempty).2
      · rw [hfold] at herr
        exact absurd herr (by simp)
    · intro hall
      have hempty : shortestEdgeCandidates (mmodQ step o.modulus) o = [] := by
        unfold shortestEdgeCandidates
        rw [shortestCand_no_qual (gridPairs o.range) ([], false) hall]
      simp only [shortestEdge]
      rw [hempty]
      rfl
  · intro xy hok
    simp only [shortestEdge] at hok
    rcases hcand : shortestEdgeCandidates (mmodQ step o.modulus) o with _ | ⟨v, rest⟩
    · rw [hcand] at hok
      exact absurd hok (by simp [minNormFold])
    · rw [hcand] at hok
      simp only [minNormFold, List.foldl_cons] at hok
      rcases hfold : List.foldl
          (fun best v =>
            match best with
            | none => some v
            | some b =>
              if qadd (qmul v.1 v.1) (qmul v.2 v.2) < qadd (qmul b.1 b.1) (qmul b.2 b.2) then
                some v
              else some b)
          (some v) rest with _ | r
      · rw [hfold] at hok
        exact absurd hok (by simp)
      · rw [hfold] at hok
        have hxy : r = xy := by simpa using hok
        obtain ⟨hmem, hle, hall⟩ := minNormFold_some rest v hfold
        subst hxy
        refine ⟨?_, ?_⟩
        · rcases hmem with rfl | hm
          · exact List.mem_cons_self _ _
          · exact List.mem_cons_of_mem _ hm
        · intro w hw
          rcases List.mem_cons.mp hw with rfl | hw
          · exact hle
          · exact hall w hw

/-- Witness for C9: with both generator step counts 0 and modulus 2, step
class 1 never occurs, so shortestEdge fails with the NotFound error. -/
theorem shortestEdge_spec_witness :
    shortestEdge 1
      { modulus := 2, delta1 := 0, delta1X := 1, delta1Y := 0,
        delta2 := 0, delta2X := 0, delta2Y := 1,
        minX := -3, maxX := 3, minY := -3, maxY := 3,
        range := 1 } = .error "Step not found on grid." :=
  (shortestEdge_spec 1
    { modulus := 2, delta1 := 0, delta1X := 1, delta1Y := 0,
      delta2 := 0, delta2X := 0, delta2Y := 1,
      minX := -3, maxX := 3, minY := -3, maxY := 3,
      range := 1 }).1.mpr (by decide)

/-! ### Claim C5: idempotency of mergeEdges -/

theorem pointLe_refl (p : ℚ × ℚ) : pointLe p p := Or.inr ⟨rfl, le_refl _⟩

theorem pointLe_trans {p q r : ℚ × ℚ} (h1 : pointLe p q) (h2 : pointLe q r) : pointLe p r := by
  rcases h1 with h1 | ⟨h1, h1y⟩
  · rcases h2 with h2 | ⟨h2, h2y⟩
    · exact Or.inl (lt_trans h1 h2)
    · exact Or.inl (h2 ▸ h1)
  · rcases h2 with h2 | ⟨h2, h2y⟩
    · exact Or.inl (h1 ▸ h2)
    · exact Or.inr ⟨h1.trans h2, le_trans h1y h2y⟩

theorem pointLe_antisymm {p q : ℚ × ℚ} (h1 : pointLe p q) (h2 : pointLe q p) : p = q := by
  rcases h1 with h1 | ⟨h1, h1y⟩
  · rcases h2 with h2 | ⟨h2, h2y⟩
    · exact absurd h2 (not_lt.mpr (le_of_lt h1))
    · exact absurd h2.symm (ne_of_lt h1)
  · rcases h2 with h2 | ⟨h2, h2y⟩
    · exact absurd h2 (not_lt.mpr (le_of_eq h1))
    · exact Prod.ext h1 (le_antisymm h1y h2y)

theorem pointLe_total (p q : ℚ × ℚ) : pointLe p q ∨ pointLe q p := by
  rcases lt_trichotomy p.1 q.1 with h | h | h
  · exact Or.inl (Or.inl h)
  · rcases le_total p.2 q.2 with hy | hy
    · exact Or.inl (Or.inr ⟨h, hy⟩)
    · exact Or.inr (Or.inr ⟨h.symm, hy⟩)
  · exact Or.inr (Or.inl h)

theorem chainStep_cons_pos {ex ey dx dy : ℚ} {ty : EdgeType} {e : EdgeQ} {s : Bool}
    {rest : List (EdgeQ × Bool)}
    (hc : e.x1 = ex ∧ e.y1 = ey ∧ e.type = ty ∧
      qmul (qsub e.x2 e.x1) dy = qmul dx (qsub e.y2 e.y1)) :
    chainStep ex ey dx dy ty ((e, s) :: rest) =
      ((chainStep e.x2 e.y2 dx dy ty rest).1,
        (e, true) :: (chainStep e.x2 e.y2 dx dy ty rest).2) := by
  rw [chainStep, if_pos hc]

theorem chainStep_cons_neg {ex ey dx dy : ℚ} {ty : EdgeType} {e : EdgeQ} {s : Bool}
    {rest : List (EdgeQ × Bool)}
    (hc : ¬ (e.x1 = ex ∧ e.y1 = ey ∧ e.type = ty ∧
      qmul (qsub e.x2 e.x1) dy = qmul dx (qsub e.y2 e.y1))) :
    chainStep ex ey dx dy ty ((e, s) :: rest) =
      ((chainStep ex ey dx dy ty rest).1,
        (e, s) :: (chainStep ex ey dx dy ty rest).2) := by
  rw [chainStep, if_neg hc]

theorem chainStep_map_fst (dx dy : ℚ) (ty : EdgeType) :
    ∀ (l : List (EdgeQ × Bool)) (ex ey : ℚ),
      ((chainStep ex ey dx dy ty l).2).map Prod.fst = l.map Prod.fst := by
  intro l
  induction l with
  | nil => intro ex ey; rfl
  | cons p rest ih =>
    intro ex ey
    obtain ⟨e, s⟩ := p
    rw [chainStep]
    split
    · simpa using ih e.x2 e.y2
    · simpa using ih ex ey

theorem chainFlagBack {dx dy : ℚ} {ty : EdgeType} {h : EdgeQ} :
    ∀ {l : List (EdgeQ × Bool)} {ex ey : ℚ},
      (h, false) ∈ (chainStep ex ey dx dy ty l).2 → (h, false) ∈ l := by
  intro l
  induction l with
  | nil => intro ex ey hm; rw [chainStep] at hm; simp at hm
  | cons p rest ih =>
    intro ex ey hm
    obtain ⟨e, s⟩ := p
    rw [chainStep] at hm
    by_cases hc : e.x1 = ex ∧ e.y1 = ey ∧ e.type = ty ∧
        qmul (qsub e.x2 e.x1) dy = qmul dx (qsub e.y2 e.y1)
    · rw [if_pos hc] at hm
      simp only [List.mem_cons] at hm
      rcases hm with heq | hm
      · exact absurd (congrArg Prod.snd heq) (by simp)
      · exact List.mem_cons_of_mem _ (ih hm)
    · rw [if_neg hc] at hm
      simp only [List.mem_cons] at hm
      rcases hm with heq | hm
      · exact heq ▸ List.mem_cons_self _ _
      · exact List.mem_cons_of_mem _ (ih hm)

theorem chainEnd_ge (dx dy : ℚ) (ty : EdgeType) :
    ∀ (l : List (EdgeQ × Bool)) (ex ey : ℚ), (∀ p ∈ l, edgeOriented p.1) →
      pointLe (ex, ey) (chainStep ex ey dx dy ty l).1 := by
  intro l
  induction l with
  | nil => intro ex ey _; exact pointLe_refl _
  | cons p rest ih =>
    intro ex ey hor
    obtain ⟨e, s⟩ := p
    rw [chainStep]
    split
    · rename_i hc
      have h1 : pointLe (ex, ey) (e.x2, e.y2) := by
        have ho := hor (e, s) (List.mem_cons_self _ _)
        rw [edgeOriented] at ho
        rwa [hc.1, hc.2.1] at ho
      exact pointLe_trans h1 (ih e.x2 e.y2 fun q hq => hor q (List.mem_cons_of_mem _ hq))
    · exact ih ex ey fun q hq => hor q (List.mem_cons_of_mem _ hq)

theorem chainFirstMove (dx dy : ℚ) (ty : EdgeType) :
    ∀ (l : List (EdgeQ × Bool)) (ex ey : ℚ),
      (chainStep ex ey dx dy ty l).1 = (ex, ey) ∨
        ∃ p ∈ l, p.1.x1 = ex ∧ p.1.y1 = ey := by
  intro l
  induction l with
  | nil => intro ex ey; exact Or.inl rfl
  | cons p rest ih =>
    intro ex ey
    obtain ⟨e, s⟩ := p
    rw [chainStep]
    split
    · rename_i hc
      exact Or.inr ⟨(e, s), List.mem_cons_self _ _, hc.1, hc.2.1⟩
    · rcases ih ex ey with heq | ⟨q, hq, hqx, hqy⟩
      · exact Or.inl heq
      · exact Or.inr ⟨q, List.mem_cons_of_mem _ hq, hqx, hqy⟩

theorem chainSurvivor (dx dy : ℚ) (ty : EdgeType) :
    ∀ (l : List (EdgeQ × Bool)) (ex ey : ℚ),
      (∀ p ∈ l, edgeOriented p.1) →
      List.Pairwise startLe (l.map Prod.fst) →
      ∀ r : EdgeQ, (r, false) ∈ (chainStep ex ey dx dy ty l).2 →
        r.x1 = (chainStep ex ey dx dy ty l).1.1 →
        r.y1 = (chainStep ex ey dx dy ty l).1.2 →
        r.type = ty →
        ¬ qmul (qsub r.x2 r.x1) dy = qmul dx (qsub r.y2 r.y1) := by
  intro l
  induction l with
  | nil =>
    intro ex ey _ _ r hm _ _ _
    rw [chainStep] at hm
    simp at hm
  | cons p rest ih =>
    intro ex ey hor hsorted r hm hx hy hty
    obtain ⟨e, s⟩ := p
    have hor' : ∀ q ∈ rest, edgeOriented q.1 :=
      fun q hq => hor q (List.mem_cons_of_mem _ hq)
    have hsorted' : List.Pairwise startLe (rest.map Prod.fst) := by
      simp only [List.map_cons] at hsorted
      exact (List.pairwise_cons.mp hsorted).2
    by_cases hc : e.x1 = ex ∧ e.y1 = ey ∧ e.type = ty ∧
        qmul (qsub e.x2 e.x1) dy = qmul dx (qsub e.y2 e.y1)
    · rw [chainStep_cons_pos hc] at hm hx hy
      simp only [List.mem_cons] at hm
      rcases hm with heq | hm
      · exact absurd (congrArg Prod.snd heq) (by simp)
      · exact ih e.x2 e.y2 hor' hsorted' r hm hx hy hty
    · rw [chainStep_cons_neg hc] at hm hx hy
      simp only [List.mem_cons] at hm
      rcases hm with heq | hm
      · have hre : r = e := congrArg Prod.fst heq
        rw [hre] at hx hy hty
        intro hcross
        rw [hre] at hcross
        rcases chainFirstMove dx dy ty rest ex ey with hP | ⟨q, hq, hqx, hqy⟩
        · rw [hP] at hx hy
          exact hc ⟨hx, hy, hty, hcross⟩
        · have hsq : startLe e q.1 := by
            simp only [List.map_cons] at hsorted
            exact (List.pairwise_cons.mp hsorted).1 q.1 (List.mem_map_of_mem _ hq)
          have hle1 : pointLe (e.x1, e.y1) (ex, ey) := by
            rw [startLe] at hsq
            rwa [hqx, hqy] at hsq
          rw [hx, hy] at hle1
          have hle2 : pointLe (ex, ey) (chainStep ex ey dx dy ty rest).1 :=
            chainEnd_ge dx dy ty rest ex ey hor'
          have hPe : (chainStep ex ey dx dy ty rest).1 = (ex, ey) :=
            pointLe_antisymm hle1 hle2
          exact hc ⟨hx.trans (congrArg Prod.fst hPe), hy.trans (congrArg Prod.snd hPe),
            hty, hcross⟩
      · exact ih ex ey hor' hsorted' r hm hx hy hty

theorem chainScalar (dx dy : ℚ) (ty : EdgeType)
    (hp : 0 < dx ∨ (dx = 0 ∧ 0 < dy)) :
    ∀ (l : List (EdgeQ × Bool)) (ex ey : ℚ), (∀ p ∈ l, edgeOriented p.1) →
      ∃ c : ℚ, 0 ≤ c ∧ (chainStep ex ey dx dy ty l).1.1 = ex + c * dx ∧
        (chainStep ex ey dx dy ty l).1.2 = ey + c * dy := by
  intro l
  induction l with
  | nil =>
    intro ex ey _
    refine ⟨0, le_refl 0, ?_, ?_⟩
    · rw [chainStep]
      show ex = ex + 0 * dx
      ring
    · rw [chainStep]
      show ey = ey + 0 * dy
      ring
  | cons p rest ih =>
    intro ex ey hor
    obtain ⟨e, s⟩ := p
    have hor' : ∀ q ∈ rest, edgeOriented q.1 :=
      fun q hq => hor q (List.mem_cons_of_mem _ hq)
    by_cases hcond : e.x1 = ex ∧ e.y1 = ey ∧ e.type = ty ∧
        qmul (qsub e.x2 e.x1) dy = qmul dx (qsub e.y2 e.y1)
    · rw [chainStep_cons_pos hcond]
      obtain ⟨hex, hey, _, hcr⟩ := hcond
      rw [qmul_eq, qmul_eq, qsub_eq, qsub_eq] at hcr
      have ho := hor (e, s) (List.mem_cons_self _ _)
      rw [edgeOriented, pointLe] at ho
      simp only at ho
      obtain ⟨c, hc0, hcx, hcy⟩ := ih e.x2 e.y2 hor'
      have key : ∃ a : ℚ, 0 ≤ a ∧ e.x2 = ex + a * dx ∧ e.y2 = ey + a * dy := by
        rcases hp with hdx | ⟨hdx0, hdy⟩
        · have hdxne : dx ≠ 0 := ne_of_gt hdx
          refine ⟨(e.x2 - e.x1) / dx, ?_, ?_, ?_⟩
          · apply div_nonneg _ (le_of_lt hdx)
            rcases ho with h | ⟨h, _⟩ <;> linarith
          · rw [div_mul_cancel₀ _ hdxne, ← hex]
            ring
          · have hfrac : (e.x2 - e.x1) / dx * dy = e.y2 - e.y1 := by
              rw [div_mul_eq_mul_div, hcr]
              exact mul_div_cancel_left₀ _ hdxne
            rw [hfrac, ← hey]
            ring
        · have hdyne : dy ≠ 0 := ne_of_gt hdy
          have hx2 : e.x2 = e.x1 := by
            rw [hdx0] at hcr
            have hz : (e.x2 - e.x1) * dy = 0 := by linarith
            rcases mul_eq_zero.mp hz with h | h
            · linarith
            · exact absurd h hdyne
          have hy2 : e.y1 ≤ e.y2 := by
            rcases ho with h | ⟨_, h⟩
            · rw [hx2] at h
              exact absurd h (lt_irrefl _)
            · exact h
          refine ⟨(e.y2 - e.y1) / dy, ?_, ?_, ?_⟩
          · apply div_nonneg _ (le_of_lt hdy)
            linarith
          · rw [hdx0]
            rw [hx2, hex]
            ring
          · rw [div_mul_cancel₀ _ hdyne, ← hey]
            ring
      obtain ⟨a, ha0, hax, hay⟩ := key
      refine ⟨a + c, by linarith, ?_, ?_⟩
      · rw [hcx, hax]
        ring
      · rw [hcy, hay]
        ring
    · rw [chainStep_cons_neg hcond]
      exact ih ex ey hor'

theorem chainStep_noop (ex ey dx dy : ℚ) (ty : EdgeType) :
    ∀ l : List (EdgeQ × Bool),
      (∀ p ∈ l, ¬ (p.1.x1 = ex ∧ p.1.y1 = ey ∧ p.1.type = ty ∧
        qmul (qsub p.1.x2 p.1.x1) dy = qmul dx (qsub p.1.y2 p.1.y1))) →
      chainStep ex ey dx dy ty l = ((ex, ey), l) := by
  intro l
  induction l with
  | nil => intro _; rw [chainStep]
  | cons p rest ih =>
    intro hall
    obtain ⟨e, s⟩ := p
    rw [chainStep_cons_neg (hall (e, s) (List.mem_cons_self _ _)),
      ih fun q hq => hall q (List.mem_cons_of_mem _ hq)]

theorem chainOriented {ex ey dx dy : ℚ} {ty : EdgeType} {l : List (EdgeQ × Bool)}
    (h : ∀ p ∈ l, edgeOriented p.1) :
    ∀ q ∈ (chainStep ex ey dx dy ty l).2, edgeOriented q.1 := by
  intro q hq
  have hmap : q.1 ∈ ((chainStep ex ey dx dy ty l).2).map Prod.fst :=
    List.mem_map_of_mem _ hq
  rw [chainStep_map_fst] at hmap
  obtain ⟨p, hp, hpq⟩ := List.mem_map.mp hmap
  rw [← hpq]
  exact h p hp

theorem mergeScanHead :
    ∀ (fuel : ℕ) (l : List (EdgeQ × Bool)), l.length ≤ fuel →
      (∀ p ∈ l, edgeOriented p.1) →
      ∀ o ∈ mergeScanFuel fuel l, ∃ h : EdgeQ, (h, false) ∈ l ∧
        o.x1 = h.x1 ∧ o.y1 = h.y1 ∧ o.type = h.type ∧
        ((h.x2 = h.x1 ∧ h.y2 = h.y1) ∨
          ∃ c : ℚ, 1 ≤ c ∧ o.x2 - o.x1 = c * (h.x2 - h.x1) ∧
            o.y2 - o.y1 = c * (h.y2 - h.y1)) := by
  intro fuel
  induction fuel with
  | zero =>
    intro l _ _ o ho
    rw [mergeScanFuel] at ho
    simp at ho
  | succ fuel ih =>
    intro l hlen hor o ho
    rcases l with _ | ⟨⟨e, b⟩, rest⟩
    · rw [mergeScanFuel] at ho
      simp at ho
    · have hlen' : rest.length ≤ fuel := by
        simp only [List.length_cons] at hlen
        omega
      have hor' : ∀ q ∈ rest, edgeOriented q.1 :=
        fun q hq => hor q (List.mem_cons_of_mem _ hq)
      cases b with
      | true =>
        rw [mergeScanFuel] at ho
        obtain ⟨h, hmem, hfields⟩ := ih rest hlen' hor' o ho
        exact ⟨h, List.mem_cons_of_mem _ hmem, hfields⟩
      | false =>
        simp only [mergeScanFuel] at ho
        rcases List.mem_cons.mp ho with rfl | ho
        · refine ⟨e, List.mem_cons_self _ _, rfl, rfl, rfl, ?_⟩
          by_cases hdeg : e.x2 = e.x1 ∧ e.y2 = e.y1
          · exact Or.inl hdeg
          · have ho2 := hor (e, false) (List.mem_cons_self _ _)
            rw [edgeOriented, pointLe] at ho2
            simp only at ho2
            have hp : 0 < qsub e.x2 e.x1 ∨ (qsub e.x2 e.x1 = 0 ∧ 0 < qsub e.y2 e.y1) := by
              rw [qsub_eq, qsub_eq]
              rcases ho2 with h | ⟨hx, hy⟩
              · left; linarith
              · right
                constructor
                · rw [hx]; ring
                · rcases lt_or_eq_of_le hy with h | h
                  · linarith
                  · exact absurd ⟨hx.symm, h.symm⟩ hdeg
            obtain ⟨c0, hc0, hcx, hcy⟩ := chainScalar (qsub e.x2 e.x1) (qsub e.y2 e.y1)
              e.type hp rest e.x2 e.y2 hor'
            refine Or.inr ⟨1 + c0, by linarith, ?_, ?_⟩
            · show (chainStep e.x2 e.y2 (qsub e.x2 e.x1) (qsub e.y2 e.y1) e.type rest).1.1
                - e.x1 = (1 + c0) * (e.x2 - e.x1)
              rw [hcx, qsub_eq]
              ring
            · show (chainStep e.x2 e.y2 (qsub e.x2 e.x1) (qsub e.y2 e.y1) e.type rest).1.2
                - e.y1 = (1 + c0) * (e.y2 - e.y1)
              rw [hcy, qsub_eq]
              ring
        · have hlen2 : ((chainStep e.x2 e.y2 (qsub e.x2 e.x1) (qsub e.y2 e.y1)
              e.type rest).2).length ≤ fuel := by
            rw [chainStep_length]
            exact hlen'
          obtain ⟨h, hmem, hfields⟩ := ih _ hlen2 (chainOriented hor') o ho
          exact ⟨h, List.mem_cons_of_mem _ (chainFlagBack hmem), hfields⟩

theorem mergeScanOriented :
    ∀ (fuel : ℕ) (l : List (EdgeQ × Bool)), l.length ≤ fuel →
      (∀ p ∈ l, edgeOriented p.1) →
      ∀ o ∈ mergeScanFuel fuel l, edgeOriented o := by
  intro fuel
  induction fuel with
  | zero =>
    intro l _ _ o ho
    rw [mergeScanFuel] at ho
    simp at ho
  | succ fuel ih =>
    intro l hlen hor o ho
    rcases l with _ | ⟨⟨e, b⟩, rest⟩
    · rw [mergeScanFuel] at ho
      simp at ho
    · have hlen' : rest.length ≤ fuel := by
        simp only [List.length_cons] at hlen
        omega
      have hor' : ∀ q ∈ rest, edgeOriented q.1 :=
        fun q hq => hor q (List.mem_cons_of_mem _ hq)
      cases b with
      | true =>
        rw [mergeScanFuel] at ho
        exact ih rest hlen' hor' o ho
      | false =>
        simp only [mergeScanFuel] at ho
        rcases List.mem_cons.mp ho with rfl | ho
        · have ho2 := hor (e, false) (List.mem_cons_self _ _)
          rw [edgeOriented] at ho2
          have hend := chainEnd_ge (qsub e.x2 e.x1) (qsub e.y2 e.y1) e.type rest
            e.x2 e.y2 hor'
          rw [edgeOriented]
          exact pointLe_trans ho2 hend
        · have hlen2 : ((chainStep e.x2 e.y2 (qsub e.x2 e.x1) (qsub e.y2 e.y1)
              e.type rest).2).length ≤ fuel := by
            rw [chainStep_length]
            exact hlen'
          exact ih _ hlen2 (chainOriented hor') o ho

theorem mergeScanSorted :
    ∀ (fuel : ℕ) (l : List (EdgeQ × Bool)), l.length ≤ fuel →
      (∀ p ∈ l, edgeOriented p.1) →
      List.Pairwise startLe (l.map Prod.fst) →
      List.Pairwise startLe (mergeScanFuel fuel l) := by
  intro fuel
  induction fuel with
  | zero =>
    intro l _ _ _
    rw [mergeScanFuel]
    exact List.Pairwise.nil
  | succ fuel ih =>
    intro l hlen hor hsorted
    rcases l with _ | ⟨⟨e, b⟩, rest⟩
    · rw [mergeScanFuel]
      exact List.Pairwise.nil
    · have hlen' : rest.length ≤ fuel := by
        simp only [List.length_cons] at hlen
        omega
      have hor' : ∀ q ∈ rest, edgeOriented q.1 :=
        fun q hq => hor q (List.mem_cons_of_mem _ hq)
      have hpair := List.pairwise_cons.mp (by simpa only [List.map_cons] using hsorted)
      cases b with
      | true =>
        rw [mergeScanFuel]
        exact ih rest hlen' hor' hpair.2
      | false =>
        simp only [mergeScanFuel]
        have hlen2 : ((chainStep e.x2 e.y2 (qsub e.x2 e.x1) (qsub e.y2 e.y1)
            e.type rest).2).length ≤ fuel := by
          rw [chainStep_length]
          exact hlen'
        have hsorted2 : List.Pairwise startLe
            (((chainStep e.x2 e.y2 (qsub e.x2 e.x1) (qsub e.y2 e.y1)
              e.type rest).2).map Prod.fst) := by
          rw [chainStep_map_fst]
          exact hpair.2
        refine List.pairwise_cons.mpr ⟨?_, ih _ hlen2 (chainOriented hor') hsorted2⟩
        intro o' ho'
        obtain ⟨h, hmem, hx', hy', _, _⟩ := mergeScanHead fuel _ hlen2
          (chainOriented hor') o' ho'
        have hmem' : (h, false) ∈ rest := chainFlagBack hmem
        have hsh : startLe e h :=
          hpair.1 h (by simpa using List.mem_map_of_mem Prod.fst hmem')
        rw [startLe] at hsh ⊢
        rw [hx', hy']
        exact hsh

theorem mergeScanNoAbsorb :
    ∀ (fuel : ℕ) (l : List (EdgeQ × Bool)), l.length ≤ fuel →
      (∀ p ∈ l, edgeOriented p.1) →
      List.Pairwise startLe (l.map Prod.fst) →
      List.Pairwise noAbsorb (mergeScanFuel fuel l) := by
  intro fuel
  induction fuel with
  | zero =>
    intro l _ _ _
    rw [mergeScanFuel]
    exact List.Pairwise.nil
  | succ fuel ih =>
    intro l hlen hor hsorted
    rcases l with _ | ⟨⟨e, b⟩, rest⟩
    · rw [mergeScanFuel]
      exact List.Pairwise.nil
    · have hlen' : rest.length ≤ fuel := by
        simp only [List.length_cons] at hlen
        omega
      have hor' : ∀ q ∈ rest, edgeOriented q.1 :=
        fun q hq => hor q (List.mem_cons_of_mem _ hq)
      have hpair := List.pairwise_cons.mp (by simpa only [List.map_cons] using hsorted)
      cases b with
      | true =>
        rw [mergeScanFuel]
        exact ih rest hlen' hor' hpair.2
      | false =>
        simp only [mergeScanFuel]
        have hlen2 : ((chainStep e.x2 e.y2 (qsub e.x2 e.x1) (qsub e.y2 e.y1)
            e.type rest).2).length ≤ fuel := by
          rw [chainStep_length]
          exact hlen'
        have hsorted2 : List.Pairwise startLe
            (((chainStep e.x2 e.y2 (qsub e.x2 e.x1) (qsub e.y2 e.y1)
              e.type rest).2).map Prod.fst) := by
          rw [chainStep_map_fst]
          exact hpair.2
        refine List.pairwise_cons.mpr ⟨?_, ih _ hlen2 (chainOriented hor') hsorted2⟩
        intro o' ho'
        obtain ⟨h, hmem, hx', hy', hty', hdec⟩ := mergeScanHead fuel _ hlen2
          (chainOriented hor') o' ho'
        intro habs
        obtain ⟨h1, h2, h3, h4⟩ := habs
        have hns := chainSurvivor (qsub e.x2 e.x1) (qsub e.y2 e.y1) e.type rest
          e.x2 e.y2 hor' hpair.2 h hmem (hx'.symm.trans h1) (hy'.symm.trans h2)
          (hty'.symm.trans h3)
        apply hns
        rw [qmul_eq, qmul_eq, qsub_eq, qsub_eq, qsub_eq, qsub_eq]
        rcases hdec with ⟨hdx, hdy⟩ | ⟨cp, hcp1, hvx, hvy⟩
        · rw [hdx, hdy]
          ring
        · by_cases hdeg2 : e.x2 = e.x1 ∧ e.y2 = e.y1
          · rw [hdeg2.1, hdeg2.2]
            ring
          · have ho2 := hor (e, false) (List.mem_cons_self _ _)
            rw [edgeOriented, pointLe] at ho2
            simp only at ho2
            have hp : 0 < e.x2 - e.x1 ∨ (e.x2 - e.x1 = 0 ∧ 0 < e.y2 - e.y1) := by
              rcases ho2 with hlt | ⟨hxe, hye⟩
              · left; linarith
              · right
                constructor
                · rw [hxe]; ring
                · rcases lt_or_eq_of_le hye with hlt | heq
                  · linarith
                  · exact absurd ⟨hxe.symm, heq.symm⟩ hdeg2
            obtain ⟨c0, hc00, hcx, hcy⟩ := chainScalar (e.x2 - e.x1) (e.y2 - e.y1)
              e.type hp rest e.x2 e.y2 hor'
            have h4c := h4
            simp only [qmul_eq, qsub_eq] at h4c
            have hEA : (chainStep e.x2 e.y2 (e.x2 - e.x1) (e.y2 - e.y1)
                e.type rest).1.1 - e.x1 = (1 + c0) * (e.x2 - e.x1) := by
              rw [hcx]
              ring
            have hEB : (chainStep e.x2 e.y2 (e.x2 - e.x1) (e.y2 - e.y1)
                e.type rest).1.2 - e.y1 = (1 + c0) * (e.y2 - e.y1) := by
              rw [hcy]
              ring
            rw [hvx, hvy, hEA, hEB] at h4c
            have hpos : ((1 + c0) * cp : ℚ) ≠ 0 :=
              ne_of_gt (mul_pos (by linarith) (by linarith))
            apply mul_left_cancel₀ hpos
            linear_combination h4c

theorem startLe_trans {a b c : EdgeQ} (h1 : startLe a b) (h2 : startLe b c) : startLe a c :=
  pointLe_trans h1 h2

theorem startLe_total (a b : EdgeQ) : startLe a b ∨ startLe b a :=
  pointLe_total _ _

theorem orientEdge_oriented (e : EdgeQ) : edgeOriented (orientEdge e) := by
  rw [orientEdge]
  split
  · rename_i hc
    rw [edgeOriented, pointLe]
    simp only
    rcases hc with h | ⟨hx, hy⟩
    · exact Or.inl h
    · exact Or.inr ⟨hx, le_of_lt hy⟩
  · rename_i hc
    push_neg at hc
    rw [edgeOriented, pointLe]
    simp only
    rcases lt_trichotomy e.x1 e.x2 with h | h | h
    · exact Or.inl h
    · exact Or.inr ⟨h, hc.2 h.symm⟩
    · exact absurd h (not_lt.mpr hc.1)

theorem orientEdge_id {e : EdgeQ} (h : edgeOriented e) : orientEdge e = e := by
  rw [orientEdge, if_neg]
  rw [edgeOriented, pointLe] at h
  simp only at h
  intro hc
  rcases h with h | ⟨hx, hy⟩
  · rcases hc with hc | ⟨hcx, _⟩
    · exact absurd hc (not_lt.mpr (le_of_lt h))
    · exact absurd hcx.symm (ne_of_lt h)
  · rcases hc with hc | ⟨_, hcy⟩
    · exact absurd hc (not_lt.mpr (le_of_eq hx))
    · exact absurd hcy (not_lt.mpr hy)

theorem map_id_of_mem {α : Type _} (f : α → α) :
    ∀ l : List α, (∀ a ∈ l, f a = a) → l.map f = l := by
  intro l
  induction l with
  | nil => intro _; rfl
  | cons a l ih =>
    intro h
    rw [List.map_cons, h a (List.mem_cons_self _ _),
      ih fun b hb => h b (List.mem_cons_of_mem _ hb)]

theorem insertEdge_mem {a e : EdgeQ} : ∀ {l : List EdgeQ},
    a ∈ insertEdge e l ↔ a = e ∨ a ∈ l := by
  intro l
  induction l with
  | nil => simp [insertEdge]
  | cons f fs ih =>
    rw [insertEdge]
    split
    · simp [List.mem_cons]
    · simp only [List.mem_cons, ih]
      tauto

theorem insertEdge_sorted {e : EdgeQ} : ∀ {l : List EdgeQ},
    List.Pairwise startLe l → List.Pairwise startLe (insertEdge e l) := by
  intro l
  induction l with
  | nil => intro _; simp [insertEdge]
  | cons f fs ih =>
    intro hp
    obtain ⟨hf, hfs⟩ := List.pairwise_cons.mp hp
    rw [insertEdge]
    split
    · rename_i hc
      have hc' : startLe e f := hc
      refine List.pairwise_cons.mpr ⟨?_, hp⟩
      intro x hx
      rcases List.mem_cons.mp hx with rfl | hx
      · exact hc'
      · exact startLe_trans hc' (hf x hx)
    · rename_i hc
      refine List.pairwise_cons.mpr ⟨?_, ih hfs⟩
      intro x hx
      rcases insertEdge_mem.mp hx with rfl | hx
      · rcases startLe_total f x with h | h
        · exact h
        · exact absurd h hc
      · exact hf x hx

theorem sortEdges_mem {a : EdgeQ} : ∀ {l : List EdgeQ}, a ∈ sortEdges l ↔ a ∈ l := by
  intro l
  induction l with
  | nil => simp [sortEdges]
  | cons b l ih =>
    show a ∈ insertEdge b (sortEdges l) ↔ _
    rw [insertEdge_mem, ih, List.mem_cons]

theorem sortEdges_sorted : ∀ l : List EdgeQ, List.Pairwise startLe (sortEdges l) := by
  intro l
  induction l with
  | nil => exact List.Pairwise.nil
  | cons a l ih =>
    show List.Pairwise startLe (insertEdge a (sortEdges l))
    exact insertEdge_sorted ih

theorem sortEdges_id : ∀ l : List EdgeQ, List.Pairwise startLe l → sortEdges l = l := by
  intro l
  induction l with
  | nil => intro _; rfl
  | cons a l ih =>
    intro hp
    obtain ⟨ha, hl⟩ := List.pairwise_cons.mp hp
    show insertEdge a (sortEdges l) = a :: l
    rw [ih hl]
    rcases l with _ | ⟨b, l'⟩
    · rw [insertEdge]
    · rw [insertEdge, if_pos (show a.x1 < b.x1 ∨ a.x1 = b.x1 ∧ a.y1 ≤ b.y1 from
        ha b (List.mem_cons_self _ _))]

theorem mergeScanFix :
    ∀ (l : List EdgeQ), List.Pairwise noAbsorb l →
      ∀ fuel : ℕ, l.length ≤ fuel →
        mergeScanFuel fuel (l.map fun e => (e, false)) = l := by
  intro l
  induction l with
  | nil =>
    intro _ fuel _
    cases fuel with
    | zero => rw [List.map_nil, mergeScanFuel]
    | succ fuel => rw [List.map_nil, mergeScanFuel]
  | cons o rest ih =>
    intro hp fuel hlen
    obtain ⟨hhead, htail⟩ := List.pairwise_cons.mp hp
    cases fuel with
    | zero => simp at hlen
    | succ fuel =>
      rw [List.map_cons]
      simp only [mergeScanFuel]
      have hnoop := chainStep_noop o.x2 o.y2 (qsub o.x2 o.x1) (qsub o.y2 o.y1) o.type
        (rest.map fun e => (e, false)) (fun p hpmem => by
          obtain ⟨b, hb, hbp⟩ := List.mem_map.mp hpmem
          rw [← hbp]
          exact hhead b hb)
      rw [hnoop]
      show o :: mergeScanFuel fuel (rest.map fun e => (e, false)) = o :: rest
      rw [ih htail fuel (by simp only [List.length_cons] at hlen; omega)]

theorem mergeEdgesProps (edges : List EdgeQ) :
    (∀ o ∈ mergeEdges edges, edgeOriented o) ∧
    List.Pairwise startLe (mergeEdges edges) ∧
    List.Pairwise noAbsorb (mergeEdges edges) := by
  have hW : ∀ p ∈ (sortEdges (edges.map orientEdge)).map (fun e => (e, false)),
      edgeOriented p.1 := by
    intro p hp
    obtain ⟨a, ha, hap⟩ := List.mem_map.mp hp
    have ha' : a ∈ edges.map orientEdge := sortEdges_mem.mp ha
    obtain ⟨b, _, hb⟩ := List.mem_map.mp ha'
    rw [← hap]
    show edgeOriented a
    rw [← hb]
    exact orientEdge_oriented b
  have hWsort : List.Pairwise startLe
      (((sortEdges (edges.map orientEdge)).map (fun e => (e, false))).map Prod.fst) := by
    rw [List.map_map]
    have hid : (Prod.fst ∘ fun e : EdgeQ => (e, false)) = fun e => e := rfl
    rw [hid]
    have : (sortEdges (edges.map orientEdge)).map (fun e => e) =
        sortEdges (edges.map orientEdge) := map_id_of_mem _ _ (fun a _ => rfl)
    rw [this]
    exact sortEdges_sorted (edges.map orientEdge)
  refine ⟨?_, ?_, ?_⟩
  · exact mergeScanOriented _ _ (le_refl _) hW
  · exact mergeScanSorted _ _ (le_refl _) hW hWsort
  · exact mergeScanNoAbsorb _ _ (le_refl _) hW hWsort

/-- C5: mergeEdges is idempotent: a merged edge list is canonically oriented,
sorted by start point and pairwise unmergeable, so orienting, sorting and
scanning it a second time changes nothing. -/
theorem mergeEdges_idempotent (edges : List EdgeQ) :
    mergeEdges (mergeEdges edges) = mergeEdges edges := by
  obtain ⟨hor, hsort, hnoab⟩ := mergeEdgesProps edges
  have h1 : (mergeEdges edges).map orientEdge = mergeEdges edges :=
    map_id_of_mem _ _ (fun o ho => orientEdge_id (hor o ho))
  show mergeScan ((sortEdges ((mergeEdges edges).map orientEdge)).map fun e => (e, false)) =
    mergeEdges edges
  rw [h1, sortEdges_id _ hsort, mergeScan]
  exact mergeScanFix _ hnoab _ (le_of_eq (List.length_map _ _).symm)

end JiLattice
